import Mathlib

/-!
Verification of the batched MCTS engine of `2048_dqn`.

The repository carries two engines describing the same algorithm:

* the legacy engine `core/evaluators/mcts.py` (flat arena with explicit
  index bookkeeping: `choose_with_puct`, `traverse`, `iterate`,
  `propagate_root_subtrees`, `load_subtree`, `get_policy`), and
* the refactored engine `core/evaluators/mcts/mcts.py` (abstract tree
  operations: `update_root`, `traverse`, `iterate`, `backpropagate`,
  `sample_root_action`).

Both are embedded below.  JAX arrays of length `max_nodes` become
functions `ℕ → _` (reads beyond the array bound never occur in the
statements proved); `jnp.ndarray` scatters (`.at[idx].set`, `.at[idx].add`)
become explicit sequential folds; `jax.lax.scan` / `while_loop` /
`fori_loop` become fuel-indexed recursion.  float32 arithmetic is
idealized over `ℝ`.  The helper module `core/trees/tree.py` used by the
refactored engine is not part of the sources; its operations are modelled
from the specification (each such definition is marked in its doc
comment).
-/

namespace MCTSVerify

/-- Pointwise update of a `ℕ`-indexed array, the embedding of
`arr.at[i].set(v)`. -/
def upd {α : Type*} (f : ℕ → α) (i : ℕ) (v : α) : ℕ → α :=
  fun j => if j = i then v else f j

/-- Pointwise update of a 2-D array, the embedding of
`arr.at[i, j].set(v)`. -/
def upd2 {α : Type*} (f : ℕ → ℕ → α) (i j : ℕ) (v : α) : ℕ → ℕ → α :=
  fun i' j' => if i' = i ∧ j' = j then v else f i' j'

@[simp] theorem upd_same {α : Type*} (f : ℕ → α) (i : ℕ) (v : α) :
    upd f i v i = v := by simp [upd]

theorem upd_ne {α : Type*} (f : ℕ → α) {i j : ℕ} (v : α) (h : j ≠ i) :
    upd f i v j = f j := by simp [upd, h]

/-- Index of the first maximum of `f` among `0, 1, …, k`: the embedding of
`jnp.argmax` (which breaks ties towards the lowest index) on an array of
length `k + 1`.  The running best is replaced only on a strict increase. -/
def firstMaxAux {α : Type*} [LinearOrder α] (f : ℕ → α) : ℕ → ℕ
  | 0 => 0
  | k + 1 => if f (firstMaxAux f k) < f (k + 1) then k + 1 else firstMaxAux f k

theorem firstMaxAux_le {α : Type*} [LinearOrder α] (f : ℕ → α) (k : ℕ) :
    firstMaxAux f k ≤ k := by
  induction k with
  | zero => simp [firstMaxAux]
  | succ k ih =>
    unfold firstMaxAux
    split
    · exact le_refl _
    · exact le_trans ih (Nat.le_succ k)

theorem firstMaxAux_is_max {α : Type*} [LinearOrder α] (f : ℕ → α) (k : ℕ) :
    ∀ i ≤ k, f i ≤ f (firstMaxAux f k) := by
  induction k with
  | zero => intro i hi; interval_cases i; simp [firstMaxAux]
  | succ k ih =>
    intro i hi
    unfold firstMaxAux
    rcases Nat.lt_succ_iff_lt_or_eq.mp (Nat.lt_succ_of_le hi) with h | h
    · have := ih i (Nat.lt_succ_iff.mp h)
      split
      · exact le_trans this (le_of_lt (by assumption))
      · exact this
    · subst h
      split
      · exact le_refl _
      · exact le_of_not_lt (by assumption)

theorem firstMaxAux_first {α : Type*} [LinearOrder α] (f : ℕ → α) (k : ℕ) :
    ∀ i < firstMaxAux f k, f i < f (firstMaxAux f k) := by
  induction k with
  | zero => intro i hi; simp [firstMaxAux] at hi
  | succ k ih =>
    intro i hi
    unfold firstMaxAux at hi ⊢
    split
    · rename_i hlt
      calc f i ≤ f (firstMaxAux f k) := by
            apply firstMaxAux_is_max
            have : i < k + 1 := by
              simp only [if_pos hlt] at hi
              omega
            omega
        _ < f (k + 1) := hlt
    · rename_i hlt
      apply ih
      simpa only [if_neg hlt] using hi

/-- Sequential scatter-write: the embedding of `arr.at[idx].set(vals)`
where `idx` and `vals` are arrays of length `m` (later positions
overwrite earlier ones). -/
def scatterSet {α : Type*} (arr : ℕ → α) (idx : ℕ → ℕ) (vals : ℕ → α) : ℕ → ℕ → α
  | 0 => arr
  | m + 1 => upd (scatterSet arr idx vals m) (idx m) (vals m)

/-- Sequential scatter-add: the embedding of `arr.at[idx].add(vals)`
where `idx` and `vals` are arrays of length `m`. -/
def scatterAdd (arr : ℕ → ℝ) (idx : ℕ → ℕ) (vals : ℕ → ℝ) : ℕ → ℕ → ℝ
  | 0 => arr
  | m + 1 =>
    let g := scatterAdd arr idx vals m
    upd g (idx m) (g (idx m) + vals m)

theorem scatterSet_not_target {α : Type*} (arr : ℕ → α) (idx : ℕ → ℕ)
    (vals : ℕ → α) (m t : ℕ) (h : ∀ s < m, idx s ≠ t) :
    scatterSet arr idx vals m t = arr t := by
  induction m with
  | zero => rfl
  | succ m ih =>
    unfold scatterSet
    rw [upd_ne _ _ (fun he => h m (Nat.lt_succ_self m) he.symm)]
    exact ih (fun s hs => h s (Nat.lt_succ_of_lt hs))

theorem scatterSet_unique_target {α : Type*} (arr : ℕ → α) (idx : ℕ → ℕ)
    (vals : ℕ → α) (m t s : ℕ) (hs : s < m) (hidx : idx s = t)
    (huni : ∀ s' < m, idx s' = t → s' = s) :
    scatterSet arr idx vals m t = vals s := by
  induction m with
  | zero => omega
  | succ m ih =>
    unfold scatterSet
    by_cases hm : s = m
    · subst hm
      rw [hidx]
      simp [upd]
    · have hsm : s < m := by omega
      have hne : idx m ≠ t := fun he =>
        hm ((huni m (Nat.lt_succ_self m) he).symm ▸ rfl)
      rw [upd_ne _ _ (Ne.symm hne)]
      exact ih hsm (fun s' hs' he => huni s' (Nat.lt_succ_of_lt hs') he)

theorem scatterAdd_eq (arr : ℕ → ℝ) (idx : ℕ → ℕ) (vals : ℕ → ℝ)
    (m t : ℕ) :
    scatterAdd arr idx vals m t =
      arr t + ∑ k ∈ (Finset.range m).filter (fun k => idx k = t), vals k := by
  induction m with
  | zero => simp [scatterAdd]
  | succ m ih =>
    unfold scatterAdd
    rw [Finset.range_succ, Finset.filter_insert]
    by_cases hm : idx m = t
    · simp only [if_pos hm]
      subst hm
      rw [Finset.sum_insert (by simp), upd_same, ih]
      ring
    · rw [upd_ne _ _ (fun he => hm he.symm), ih, if_neg hm]

/-! ## Legacy engine: `core/evaluators/mcts.py` -/

/-- The search state of the legacy engine (`MCTSState` in
`core/evaluators/mcts.py`).  Arrays of length `max_nodes` (or
`max_nodes - 1` for `visits`) are functions from slot index; the scalar
1-element arrays (`depth`, `max_depth`, `cur_node`, `next_empty`) are
naturals.  The PRNG `key` and the constant array `reward_indices` are
threaded separately by the definitions that use them. -/
structure MCTSState where
  idx_action_map : ℕ → ℕ → ℕ
  p_vals : ℕ → ℕ → ℝ
  n_vals : ℕ → ℝ
  w_vals : ℕ → ℝ
  visits : ℕ → ℕ
  depth : ℕ
  max_depth : ℕ
  cur_node : ℕ
  next_empty : ℕ
  subtrees : ℕ → ℕ
  parents : ℕ → ℕ

/-- `MCTS.get_reward_indices`: the tiled pattern `[1, 0, …, 0]` (one block
per player) over the traversal path, as a real-valued array. -/
def get_reward_indices (numPlayers : ℕ) : ℕ → ℝ :=
  fun k => if k % numPlayers = 0 then 1 else 0

/-- `MCTS.init_visits`: the all-zero visits array with position 0 (the
root) set to 1. -/
def init_visits : ℕ → ℕ :=
  fun k => if k = 0 then 1 else 0

/-- `MCTS.reset`: a fresh arena with the root at slot 1 and
`next_empty = 2`; all node statistics zeroed. -/
def reset : MCTSState where
  idx_action_map := fun _ _ => 0
  p_vals := fun _ _ => 0
  n_vals := fun _ => 0
  w_vals := fun _ => 0
  visits := init_visits
  depth := 1
  max_depth := 0
  cur_node := 1
  next_empty := 2
  subtrees := fun _ => 0
  parents := fun _ => 0

/-- `MCTS.reset_search`: between searches, reset the traversal cursor and
path record while keeping accumulated statistics. -/
def reset_search (st : MCTSState) : MCTSState :=
  { st with depth := 1, cur_node := 1, visits := init_visits }

/-- The per-action PUCT score computed by `MCTS.choose_with_puct` before
legality masking, over `A` actions: `W/max(N,1) + c·p·√(1+ΣN)/(1+N)`,
with `N`, `W` read through the child edge (zero when the edge is empty). -/
noncomputable def puct_score (c : ℝ) (A : ℕ) (st : MCTSState) : ℕ → ℝ :=
  fun a =>
    let child := fun b => st.idx_action_map st.cur_node b
    let visits := fun b => if 0 < child b then st.n_vals (child b) else 0
    let visits_nozero := fun b => max (visits b) 1
    let w_vals := fun b => if 0 < child b then st.w_vals (child b) else 0
    let q_vals := fun b => w_vals b / visits_nozero b
    q_vals a + c * st.p_vals st.cur_node a *
      Real.sqrt (1 + ∑ b ∈ Finset.range A, visits b) / (1 + visits a)

/-- The legality-masked PUCT score of `MCTS.choose_with_puct`: illegal
actions are replaced by `-∞` (value `⊥` in `EReal`). -/
noncomputable def masked_puct_score (c : ℝ) (A : ℕ) (st : MCTSState)
    (legal : ℕ → Bool) : ℕ → EReal :=
  fun a => if legal a then (puct_score c A st a : EReal) else ⊥

/-- `MCTS.choose_with_puct`: the `jnp.argmax` (first index attaining the
maximum) of the legality-masked PUCT scores over the `A` actions. -/
noncomputable def choose_with_puct (c : ℝ) (A : ℕ) (st : MCTSState)
    (legal : ℕ → Bool) : ℕ :=
  firstMaxAux (masked_puct_score c A st legal) (A - 1)

/-- `MCTS.traverse`: descend along `action` from `cur_node`, allocating
`next_empty` for an unvisited child when the arena is not full; returns
the updated state together with the `unvisited` flag. -/
def traverse (maxNodes : ℕ) (st : MCTSState) (action : ℕ) :
    MCTSState × Bool :=
  let master₀ := st.idx_action_map st.cur_node action
  let unvisited := master₀ = 0
  let in_bounds := ¬(maxNodes ≤ st.next_empty ∧ unvisited)
  let master := if in_bounds ∧ unvisited then st.next_empty else master₀
  (⟨upd2 st.idx_action_map st.cur_node action master,
    st.p_vals, st.n_vals, st.w_vals,
    upd st.visits st.depth master,
    st.depth, st.max_depth,
    master,
    if in_bounds ∧ unvisited then st.next_empty + 1 else st.next_empty,
    st.subtrees,
    upd st.parents master st.cur_node⟩,
   decide unvisited)

/-- The backpropagation increment array of `MCTS.iterate`:
`jnp.where(is_leaf, visits > 0, 0)`. -/
def leaf_inc (visits : ℕ → ℕ) (isLeaf : Bool) : ℕ → ℝ :=
  fun k => if isLeaf ∧ 0 < visits k then 1 else 0

/-- The backpropagation reward array of `MCTS.iterate`:
`leaf_inc * (value * reward_indices + (-value) * (1 - reward_indices))`. -/
noncomputable def backprop_rewards (visits : ℕ → ℕ) (isLeaf : Bool)
    (rewardIndices : ℕ → ℝ) (value : ℝ) : ℕ → ℝ :=
  fun k =>
    leaf_inc visits isLeaf k *
      (value * rewardIndices k + (-value) * (1 - rewardIndices k))

/-- One iteration of the legacy engine (`MCTS.iterate` in
`core/evaluators/mcts.py`), with the external collaborators' outputs
passed in as arguments: `legal` is the legal-action mask of the current
environment state, `terminated` and `reward` come from `env.step`, and
`logits`/`evaluation` from `evaluate_leaf` (the policy is already
legality-masked and softmaxed by the caller of this definition in the
code; it is passed here as the final `policy` row).  `numPlayers` fixes
`reward_indices`. -/
noncomputable def legacy_iterate (maxNodes A numPlayers : ℕ) (c : ℝ)
    (legal : ℕ → Bool) (terminated : Bool) (reward evaluation : ℝ)
    (policy : ℕ → ℝ) (st : MCTSState) : MCTSState :=
  let action := choose_with_puct c A st legal
  let tv := traverse maxNodes st action
  let st₁ := tv.1
  let unvisited := tv.2
  let value := if terminated then reward else evaluation
  let isLeaf := terminated || unvisited
  let m := maxNodes - 1
  { st₁ with
    p_vals := upd st₁.p_vals st₁.cur_node policy
    n_vals := scatterAdd st₁.n_vals st₁.visits (leaf_inc st₁.visits isLeaf) m
    w_vals := scatterAdd st₁.w_vals st₁.visits
      (backprop_rewards st₁.visits isLeaf (get_reward_indices numPlayers) value) m
    depth := if isLeaf then 1 else st₁.depth + 1
    max_depth := max st₁.depth st₁.max_depth
    visits := fun k => if 1 ≤ k ∧ isLeaf then 0 else st₁.visits k
    cur_node := if isLeaf then 1 else st₁.cur_node }

/-- The masked softmax computed by both engines: logits of illegal
actions are set to `-∞` before `jax.nn.softmax`, so they contribute
`exp(-∞) = 0` to the normalization over the `A` actions. -/
noncomputable def masked_softmax (A : ℕ) (logits : ℕ → ℝ)
    (legal : ℕ → Bool) : ℕ → ℝ :=
  fun a =>
    (if legal a then Real.exp (logits a) else 0) /
      ∑ b ∈ Finset.range A, (if legal b then Real.exp (logits b) else 0)

/-- The root-prior mixture computed by `MCTS.evaluate` (legacy engine):
`(1 - ε) · policy + ε · dirichlet_noise`, pointwise over actions. -/
noncomputable def noisy_policy (ε : ℝ) (policy dirNoise : ℕ → ℝ) : ℕ → ℝ :=
  fun a => (1 - ε) * policy a + ε * dirNoise a

/-- The root prior written into `p_vals[1]` by `MCTS.evaluate`: the
Dirichlet mixture of the legality-masked softmax of the root logits. -/
noncomputable def evaluate_root_prior (A : ℕ) (ε : ℝ) (logits : ℕ → ℝ)
    (legal : ℕ → Bool) (dirNoise : ℕ → ℝ) : ℕ → ℝ :=
  noisy_policy ε (masked_softmax A logits legal) dirNoise

/-- `MCTS.get_policy` (legacy engine), exactly as written:
`action_vists = n_vals[1]` (a scalar) divided by its own sum. -/
noncomputable def get_policy (st : MCTSState) : ℝ :=
  st.n_vals 1 / st.n_vals 1

/-- The visit-derived root action distribution described by the
specification: `weights_a = n[edge[root, a]] / Σ_b n[edge[root, b]]`,
with empty edges (child slot 0) contributing the sentinel slot's zero
count. -/
noncomputable def spec_root_weights (A : ℕ) (st : MCTSState) : ℕ → ℝ :=
  fun a =>
    st.n_vals (st.idx_action_map 1 a) /
      ∑ b ∈ Finset.range A, st.n_vals (st.idx_action_map 1 b)

/-! ## Refactored engine: `core/evaluators/mcts/mcts.py`

The tree container it builds on (`core/trees/tree.py`) is not among the
sources; the container operations below are modelled from the
specification (§3 data model and §4.1 arena operations). -/

/-- A node view of the refactored tree (`MCTSNode`): visit count `n`,
cumulative value `w`, prior vector `p`, terminal flag, and the opaque
environment embedding. -/
structure RNode (E : Type) where
  n : ℕ
  w : ℝ
  p : ℕ → ℝ
  terminal : Bool
  embedding : E

/-- Modelled from the spec: the tree container `MCTSTree` of
`core/trees/tree.py` (struct-of-arrays per §4.1): per-slot arrays for
`n`, `w`, `p`, `terminal`, `embedding`, the dense edge map
`edge[slot, action] → child_slot_or_EMPTY` with `EMPTY = 0`, parent
back-pointers, the allocator cursor `next_empty`, and the PRNG key
(modelled as a natural number). Slot 0 is the null sentinel
(`NULL_INDEX = 0`) and slot 1 the root (`ROOT_INDEX = 1`). -/
structure RTree (E : Type) where
  key : ℕ
  nVals : ℕ → ℕ
  wVals : ℕ → ℝ
  pVals : ℕ → ℕ → ℝ
  terminals : ℕ → Bool
  embeddings : ℕ → E
  edge_map : ℕ → ℕ → ℕ
  parents : ℕ → ℕ
  next_empty : ℕ

/-- Modelled from the spec: `tree.at(i)` of `core/trees/tree.py` — the
node view assembled from the per-slot arrays. -/
def treeAt {E : Type} (t : RTree E) (i : ℕ) : RNode E where
  n := t.nVals i
  w := t.wVals i
  p := t.pVals i
  terminal := t.terminals i
  embedding := t.embeddings i

/-- Modelled from the spec: `update_node` of `core/trees/tree.py` —
overwrite the mutable fields of slot `i` with the given node. -/
def update_node {E : Type} (t : RTree E) (i : ℕ) (node : RNode E) :
    RTree E :=
  { t with
    nVals := upd t.nVals i node.n
    wVals := upd t.wVals i node.w
    pVals := upd t.pVals i node.p
    terminals := upd t.terminals i node.terminal
    embeddings := upd t.embeddings i node.embedding }

/-- Modelled from the spec: `set_root` of `core/trees/tree.py` — write
the node at the root slot 1. -/
def set_root {E : Type} (t : RTree E) (node : RNode E) : RTree E :=
  update_node t 1 node

/-- Modelled from the spec: `add_node` of `core/trees/tree.py` — when the
arena is not full, write `node` at `next_empty`, set
`edge[parent, action]` and the new slot's parent pointer, and advance
`next_empty`; when full, the would-be child is not materialized and the
tree is unchanged. -/
def add_node {E : Type} (maxNodes : ℕ) (t : RTree E) (parent action : ℕ)
    (node : RNode E) : RTree E :=
  if t.next_empty < maxNodes then
    { t with
      nVals := upd t.nVals t.next_empty node.n
      wVals := upd t.wVals t.next_empty node.w
      pVals := upd t.pVals t.next_empty node.p
      terminals := upd t.terminals t.next_empty node.terminal
      embeddings := upd t.embeddings t.next_empty node.embedding
      edge_map := upd2 t.edge_map parent action t.next_empty
      parents := upd t.parents t.next_empty parent
      next_empty := t.next_empty + 1 }
  else t

/-- Modelled from the spec: `is_edge` of `core/trees/tree.py` — whether
`edge[parent, action]` is populated (not the `EMPTY = 0` sentinel). -/
def is_edge {E : Type} (t : RTree E) (parent action : ℕ) : Bool :=
  t.edge_map parent action ≠ 0

/-- Modelled from the spec: `get_child_data` of `core/trees/tree.py` —
gather a per-slot array through the edge row of `idx`; an empty edge
contributes the zero of the sentinel slot 0. -/
def get_child_data {E : Type} (t : RTree E) (data : ℕ → ℕ) (idx : ℕ) :
    ℕ → ℕ :=
  fun a => data (t.edge_map idx a)

/-- Modelled from the spec: `get_rng` of `core/trees/tree.py` — split the
tree's PRNG key, returning a sample key and the tree carrying a fresh
(distinct) successor key. -/
def get_rng {E : Type} (t : RTree E) : ℕ × RTree E :=
  (t.key, { t with key := t.key + 1 })

/-- The collaborators and configuration of the refactored `MCTS` class:
the pure environment step, the leaf evaluator, the legal-action mask, the
action selector, the discount `γ` and the sampling temperature `τ`.
`numActions` is the length `A` of the policy arrays, and `choice_fn`
models `jax.random.choice` (a categorical draw from a weight vector,
given a sample key). -/
structure MCTSAlg (E : Type) where
  step_fn : E → ℕ → E × ℝ × Bool
  eval_fn : E → (ℕ → ℝ) × ℝ
  action_mask_fn : E → ℕ → Bool
  action_selection_fn : RTree E → ℕ → ℝ → ℕ
  discount : ℝ
  temperature : ℝ
  numActions : ℕ
  choice_fn : ℕ → (ℕ → ℝ) → ℕ

/-- `MCTS.update_root` (refactored engine): evaluate the root embedding,
softmax the logits, and overwrite the root node — preserving `n` and `w`
when the root was already visited (`n > 0`), and seeding `n = 1`,
`w = v₀` otherwise. -/
noncomputable def update_root {E : Type} (alg : MCTSAlg E) (t : RTree E)
    (rootEmbedding : E) : RTree E :=
  let ev := alg.eval_fn rootEmbedding
  let rootPolicy := fun a =>
    Real.exp (ev.1 a) / ∑ b ∈ Finset.range alg.numActions, Real.exp (ev.1 b)
  let rootNode := treeAt t 1
  let visited := 0 < rootNode.n
  set_root t
    { rootNode with
      p := rootPolicy
      w := if visited then rootNode.w else ev.2
      n := if visited then rootNode.n else 1
      embedding := rootEmbedding }

/-- The traversal cursor of the refactored engine (`TraversalState`). -/
structure TraversalState where
  parent : ℕ
  action : ℕ

/-- The loop condition of `MCTS.traverse` (refactored engine): descend
while the chosen edge is populated and the child is not terminal. -/
def traverse_cond {E : Type} (t : RTree E) (ts : TraversalState) : Bool :=
  is_edge t ts.parent ts.action &&
    !(treeAt t (t.edge_map ts.parent ts.action)).terminal

/-- The `jax.lax.while_loop` of `MCTS.traverse`, as fuel-indexed
recursion: while the condition holds, move the cursor to the child and
select the next action there. -/
def traverse_loop {E : Type} (alg : MCTSAlg E) (t : RTree E) :
    ℕ → TraversalState → TraversalState
  | 0, ts => ts
  | fuel + 1, ts =>
    if traverse_cond t ts then
      let nodeIdx := t.edge_map ts.parent ts.action
      traverse_loop alg t fuel
        ⟨nodeIdx, alg.action_selection_fn t nodeIdx alg.discount⟩
    else ts

/-- `MCTS.traverse` (refactored engine): start at the root with the
root's selected action and run the descent loop. -/
def rtraverse {E : Type} (alg : MCTSAlg E) (fuel : ℕ) (t : RTree E) :
    TraversalState :=
  traverse_loop alg t fuel ⟨1, alg.action_selection_fn t 1 alg.discount⟩

/-- `MCTS.backpropagate` (refactored engine): walk the parent pointers
from `idx` until the null sentinel 0, multiplying the value by the
discount before each node update, and adding it to `w` while
incrementing `n`. -/
def backpropagate {E : Type} (discount : ℝ) :
    ℕ → RTree E → ℕ → ℝ → RTree E
  | 0, t, _, _ => t
  | fuel + 1, t, idx, value =>
    if idx = 0 then t
    else
      let value' := value * discount
      let node := treeAt t idx
      let t' := update_node t idx
        { node with n := node.n + 1, w := node.w + value' }
      backpropagate discount fuel t' (t'.parents idx) value'

/-- The expansion step of `MCTS.iterate` (refactored engine): either
update the existing child (the terminal-stop case) or add a new node,
then backpropagate the value from the parent. -/
noncomputable def expand_and_backprop {E : Type} (alg : MCTSAlg E)
    (maxNodes fuel : ℕ) (t : RTree E) (parent action : ℕ) (value : ℝ)
    (policy : ℕ → ℝ) (terminated : Bool) (newEmbedding : E) : RTree E :=
  let nodeExists := is_edge t parent action
  let nodeId := t.edge_map parent action
  let node := treeAt t nodeId
  let t₁ :=
    if nodeExists then
      update_node t nodeId
        { node with
          n := node.n + 1
          w := node.w + value
          p := policy
          terminal := terminated
          embedding := newEmbedding }
    else
      add_node maxNodes t parent action
        ⟨1, value, policy, terminated, newEmbedding⟩
  backpropagate alg.discount fuel t₁ parent value

/-- `MCTS.iterate` (refactored engine): traverse to a leaf, step the
environment, evaluate, mask and softmax the logits, override the value
with the reward on termination, expand or update the child, and
backpropagate. -/
noncomputable def riterate {E : Type} (alg : MCTSAlg E)
    (maxNodes fuel : ℕ) (t : RTree E) : RTree E :=
  let ts := rtraverse alg fuel t
  let embedding := (treeAt t ts.parent).embedding
  let step := alg.step_fn embedding ts.action
  let newEmbedding := step.1
  let reward := step.2.1
  let terminated := step.2.2
  let ev := alg.eval_fn newEmbedding
  let policyMask := alg.action_mask_fn newEmbedding
  let policy := masked_softmax alg.numActions ev.1 policyMask
  let value := if terminated then reward else ev.2
  expand_and_backprop alg maxNodes fuel t ts.parent ts.action value policy
    terminated newEmbedding

/-- `MCTS.sample_root_action` (refactored engine): normalize the root's
child visit counts into `action_weights`, consume the tree's RNG key,
and either return the argmax (temperature 0) or sample from the
temperature-adjusted categorical. -/
noncomputable def sample_root_action {E : Type} (alg : MCTSAlg E)
    (t : RTree E) : RTree E × ℕ × (ℕ → ℝ) :=
  let actionVisits := get_child_data t t.nVals 1
  let actionWeights : ℕ → ℝ := fun a =>
    (actionVisits a : ℝ) / ∑ b ∈ Finset.range alg.numActions, (actionVisits b : ℝ)
  let rng := get_rng t
  if alg.temperature = 0 then
    (rng.2, firstMaxAux actionWeights (alg.numActions - 1), actionWeights)
  else
    let adjusted : ℕ → ℝ := fun a =>
      actionWeights a ^ (1 / alg.temperature)
    let renormalized : ℕ → ℝ := fun a =>
      adjusted a / ∑ b ∈ Finset.range alg.numActions, adjusted b
    (rng.2, alg.choice_fn rng.1 renormalized, renormalized)

/-! ## Subtree promotion (legacy engine) -/

/-- One step of the label-propagation scan of
`MCTS.propagate_root_subtrees`: every slot whose parent's label exceeds 1
adopts the parent's label (simultaneously over all slots). -/
def label_step (parents : ℕ → ℕ) (L : ℕ → ℕ) : ℕ → ℕ :=
  fun s => if 1 < L (parents s) then L (parents s) else L s

/-- The label-propagation scan of `MCTS.propagate_root_subtrees` after
`k` iterations, starting from the identity labelling `subtrees[s] = s`. -/
def label_iter (parents : ℕ → ℕ) : ℕ → ℕ → ℕ
  | 0 => fun s => s
  | k + 1 => label_step parents (label_iter parents k)

/-- `MCTS.propagate_root_subtrees`: reset the sentinel's parent pointer
to 0 and run `max_nodes` iterations of label propagation, so that each
slot is labelled with its top-level child-of-root ancestor. -/
def propagate_root_subtrees (maxNodes : ℕ) (st : MCTSState) : MCTSState :=
  let parents := upd st.parents 0 0
  { st with
    parents := parents
    subtrees := label_iter parents maxNodes }

/-- The retained-slot indicator of `MCTS.load_subtree`
(`new_nodes = subtrees == subtree_master_idx`). -/
def load_new_nodes (st : MCTSState) (master : ℕ) : ℕ → Bool :=
  fun s => st.subtrees s = master

/-- Inclusive cumulative count of `true` positions: the embedding of
`new_nodes.cumsum()` on a boolean array. -/
def bcumsum (g : ℕ → Bool) (s : ℕ) : ℕ :=
  ∑ t ∈ Finset.range (s + 1), (if g t then 1 else 0)

/-- The compacting translation of `MCTS.load_subtree`: retained slots
(`new_nodes`) get their cumulative index `1, 2, …` (in slot order), all
other slots map to the sentinel 0; when the committed child is missing
(`subtree_master_idx ≤ 1`), everything maps to 0. -/
def load_translation (st : MCTSState) (master : ℕ) : ℕ → ℕ :=
  fun s =>
    if 1 < master ∧ load_new_nodes st master s then
      bcumsum (load_new_nodes st master) s
    else 0

/-- `MCTS.load_subtree`: after propagating subtree labels, translate the
slots of the committed child's subtree to the compact prefix `1, 2, …`,
gather every per-slot array through the translation (translating stored
slot indices in `idx_action_map` and `parents` as well), erase slot 0 and
every slot at or beyond the new `next_empty`, and clamp the new
`next_empty` to at least 2.  `maxNodes` is the array length. -/
def load_subtree (maxNodes : ℕ) (st₀ : MCTSState) (action : ℕ) :
    MCTSState :=
  let st := propagate_root_subtrees maxNodes st₀
  let master := st.idx_action_map 1 action
  let translation := load_translation st master
  let old_subtree_idxs : ℕ → ℕ := fun s =>
    if load_new_nodes st master s then s else 0
  let next_empty_pre := ((Finset.range maxNodes).sup translation) + 1
  let erased : ℕ → Prop := fun t => t = 0 ∨ next_empty_pre ≤ t
  let gatherℝ : (ℕ → ℝ) → ℕ → ℝ := fun arr t =>
    if t = 0 ∨ next_empty_pre ≤ t then 0
    else scatterSet arr translation (fun s => arr (old_subtree_idxs s)) maxNodes t
  { st with
    w_vals := gatherℝ st.w_vals
    n_vals := gatherℝ st.n_vals
    p_vals := fun t =>
      if erased t then fun _ => 0
      else scatterSet st.p_vals translation
        (fun s => st.p_vals (old_subtree_idxs s)) maxNodes t
    idx_action_map := fun t =>
      if erased t then fun _ => 0
      else scatterSet st.idx_action_map translation
        (fun s a => translation (st.idx_action_map s a)) maxNodes t
    parents := fun t =>
      if erased t then 0
      else scatterSet st.parents translation
        (fun s => translation (st.parents s)) maxNodes t
    next_empty := max 2 next_empty_pre
    max_depth := max 1 (st.max_depth - 1) }

/-! ## Claim C1: the PUCT selector -/

/-- The selector score exactly as the claim states it: for each action
`a` with child `c = edge[s, a]`, `N_a = n[c]` and `W_a = w[c]` when the
child is non-empty and `0` otherwise, scored as
`W_a / max(N_a, 1) + c·p[s,a]·√(1 + Σ_b N_b) / (1 + N_a)`, with illegal
actions replaced by `-∞`. -/
noncomputable def claim_selector_score (cPuct : ℝ) (A : ℕ) (st : MCTSState)
    (legal : ℕ → Bool) : ℕ → EReal :=
  fun a =>
    let child := fun b => st.idx_action_map st.cur_node b
    let N := fun b => if child b ≠ 0 then st.n_vals (child b) else 0
    let W := fun b => if child b ≠ 0 then st.w_vals (child b) else 0
    let score : ℝ :=
      W a / max (N a) 1 +
        cPuct * st.p_vals st.cur_node a *
          Real.sqrt (1 + ∑ b ∈ Finset.range A, N b) / (1 + N a)
    if legal a then (score : EReal) else ⊥

theorem masked_puct_score_eq_claim (cPuct : ℝ) (A : ℕ) (st : MCTSState)
    (legal : ℕ → Bool) :
    masked_puct_score cPuct A st legal = claim_selector_score cPuct A st legal := by
  funext a
  simp only [masked_puct_score, claim_selector_score, puct_score,
    Nat.pos_iff_ne_zero]

/-- C1: `choose_with_puct` returns, over the `A` actions, the first index
attaining the maximum of the claim's score vector (children read through
the edge map with empty edges contributing `N = W = 0`, PUCT scoring,
illegal actions at `-∞`): every action scores no higher than the chosen
one, every action of lower index scores strictly lower, and the chosen
index is a valid action. -/
theorem choose_with_puct_is_first_argmax (cPuct : ℝ) (A : ℕ)
    (st : MCTSState) (legal : ℕ → Bool) (hA : 1 ≤ A) :
    (∀ a < A, claim_selector_score cPuct A st legal a ≤
      claim_selector_score cPuct A st legal (choose_with_puct cPuct A st legal)) ∧
    (∀ a < choose_with_puct cPuct A st legal,
      claim_selector_score cPuct A st legal a <
        claim_selector_score cPuct A st legal (choose_with_puct cPuct A st legal)) ∧
    choose_with_puct cPuct A st legal < A := by
  unfold choose_with_puct
  rw [masked_puct_score_eq_claim]
  refine ⟨?_, ?_, ?_⟩
  · intro a ha
    exact firstMaxAux_is_max _ (A - 1) a (by omega)
  · intro a ha
    exact firstMaxAux_first _ (A - 1) a ha
  · have := firstMaxAux_le (claim_selector_score cPuct A st legal) (A - 1)
    omega

theorem choose_with_puct_is_first_argmax_witness :
    1 ≤ 2 ∧
    ((∀ a < 2, claim_selector_score 0 2 reset (fun _ => true) a ≤
      claim_selector_score 0 2 reset (fun _ => true)
        (choose_with_puct 0 2 reset (fun _ => true))) ∧
    (∀ a < choose_with_puct 0 2 reset (fun _ => true),
      claim_selector_score 0 2 reset (fun _ => true) a <
        claim_selector_score 0 2 reset (fun _ => true)
          (choose_with_puct 0 2 reset (fun _ => true))) ∧
    choose_with_puct 0 2 reset (fun _ => true) < 2) :=
  ⟨by decide,
    choose_with_puct_is_first_argmax 0 2 reset (fun _ => true) (by decide)⟩

/-! ## Claim C5: root Dirichlet mixing -/

/-- C5: the root prior written by `evaluate` equals
`(1 − ε)·policy + ε·η` pointwise, where `policy` is the legality-masked
softmax of the root logits and `η` the Dirichlet sample; in particular
with `ε = 0` it is exactly the masked softmax, and with `ε = 1` exactly
the Dirichlet sample. -/
theorem evaluate_root_prior_mixture (A : ℕ) (ε : ℝ) (logits : ℕ → ℝ)
    (legal : ℕ → Bool) (η : ℕ → ℝ) :
    (∀ a, evaluate_root_prior A ε logits legal η a =
      (1 - ε) * masked_softmax A logits legal a + ε * η a) ∧
    (ε = 0 → ∀ a, evaluate_root_prior A ε logits legal η a =
      masked_softmax A logits legal a) ∧
    (ε = 1 → ∀ a, evaluate_root_prior A ε logits legal η a = η a) := by
  refine ⟨fun a => rfl, fun h a => ?_, fun h a => ?_⟩
  · subst h
    show (1 - 0) * masked_softmax A logits legal a + 0 * η a = _
    ring
  · subst h
    show (1 - 1) * masked_softmax A logits legal a + 1 * η a = _
    ring

theorem evaluate_root_prior_mixture_witness :
    (0 : ℝ) = 0 ∧
    ∀ a, evaluate_root_prior 2 0 (fun _ => 0) (fun _ => true)
      (fun _ => 1 / 2) a = masked_softmax 2 (fun _ => 0) (fun _ => true) a :=
  ⟨rfl, (evaluate_root_prior_mixture 2 0 (fun _ => 0) (fun _ => true)
    (fun _ => 1 / 2)).2.1 rfl⟩

/-! ## Claim C6: root statistics preserved across searches -/

/-- C6: `update_root` preserves the root's `n` and `w` when the root was
previously visited (`n > 0`), and otherwise seeds them with `n = 1` and
the evaluator's value estimate `v₀`. -/
theorem update_root_preserves_visited {E : Type} (alg : MCTSAlg E)
    (t : RTree E) (emb : E) :
    (0 < t.nVals 1 →
      (update_root alg t emb).nVals 1 = t.nVals 1 ∧
      (update_root alg t emb).wVals 1 = t.wVals 1) ∧
    (t.nVals 1 = 0 →
      (update_root alg t emb).nVals 1 = 1 ∧
      (update_root alg t emb).wVals 1 = (alg.eval_fn emb).2) := by
  constructor
  · intro h
    constructor <;>
      simp [update_root, set_root, update_node, treeAt, h]
  · intro h
    constructor <;>
      simp [update_root, set_root, update_node, treeAt, h]

/-- A one-slot-root example tree over the trivial embedding type, with an
unvisited root. -/
def rtree0 : RTree Unit where
  key := 0
  nVals := fun _ => 0
  wVals := fun _ => 0
  pVals := fun _ _ => 0
  terminals := fun _ => false
  embeddings := fun _ => ()
  edge_map := fun _ _ => 0
  parents := fun _ => 0
  next_empty := 2

/-- A trivial collaborator bundle over the `Unit` embedding type. -/
noncomputable def alg0 : MCTSAlg Unit where
  step_fn := fun _ _ => ((), 0, true)
  eval_fn := fun _ => (fun _ => 0, 1 / 4)
  action_mask_fn := fun _ _ => true
  action_selection_fn := fun _ _ _ => 0
  discount := -1
  temperature := 0
  numActions := 2
  choice_fn := fun _ _ => 0

theorem update_root_preserves_visited_witness :
    rtree0.nVals 1 = 0 ∧
    (update_root alg0 rtree0 ()).nVals 1 = 1 ∧
    (update_root alg0 rtree0 ()).wVals 1 = (alg0.eval_fn ()).2 :=
  ⟨rfl, (update_root_preserves_visited alg0 rtree0 ()).2 rfl⟩

/-! ## Claim C10: the RNG key is consumed before the temperature branch -/

/-- C10: `sample_root_action` always returns a tree whose RNG key differs
from the input's, while leaving the node statistics and the edge map
unchanged; with temperature 0 the sampled action is the deterministic
first argmax of the normalized child visit counts. -/
theorem sample_root_action_consumes_key {E : Type} (alg : MCTSAlg E)
    (t : RTree E) :
    (sample_root_action alg t).1.key ≠ t.key ∧
    (sample_root_action alg t).1.nVals = t.nVals ∧
    (sample_root_action alg t).1.wVals = t.wVals ∧
    (sample_root_action alg t).1.pVals = t.pVals ∧
    (sample_root_action alg t).1.edge_map = t.edge_map ∧
    (alg.temperature = 0 →
      (sample_root_action alg t).2.1 =
        firstMaxAux (fun a => (get_child_data t t.nVals 1 a : ℝ) /
          ∑ b ∈ Finset.range alg.numActions, (get_child_data t t.nVals 1 b : ℝ))
          (alg.numActions - 1)) := by
  by_cases h : alg.temperature = 0 <;>
    refine ⟨?_, ?_, ?_, ?_, ?_, ?_⟩ <;>
      simp [sample_root_action, get_rng, h]

theorem sample_root_action_consumes_key_witness :
    (sample_root_action alg0 rtree0).1.key ≠ rtree0.key ∧
    (sample_root_action alg0 rtree0).1.nVals = rtree0.nVals ∧
    (sample_root_action alg0 rtree0).1.wVals = rtree0.wVals ∧
    (sample_root_action alg0 rtree0).1.pVals = rtree0.pVals ∧
    (sample_root_action alg0 rtree0).1.edge_map = rtree0.edge_map ∧
    (alg0.temperature = 0 →
      (sample_root_action alg0 rtree0).2.1 =
        firstMaxAux (fun a => (get_child_data rtree0 rtree0.nVals 1 a : ℝ) /
          ∑ b ∈ Finset.range alg0.numActions,
            (get_child_data rtree0 rtree0.nVals 1 b : ℝ))
          (alg0.numActions - 1)) :=
  sample_root_action_consumes_key alg0 rtree0

/-! ## Claim C8: the visit-derived root distribution -/

/-- A small populated arena: the root (slot 1, visited 5 times) has
children at slots 2 and 3 through actions 0 and 1, visited 3 and 2
times. -/
noncomputable def c8state : MCTSState where
  idx_action_map := fun s a => if s = 1 ∧ a = 0 then 2 else if s = 1 ∧ a = 1 then 3 else 0
  p_vals := fun _ _ => 0
  n_vals := fun s => if s = 1 then 5 else if s = 2 then 3 else if s = 3 then 2 else 0
  w_vals := fun _ => 0
  visits := init_visits
  depth := 1
  max_depth := 1
  cur_node := 1
  next_empty := 4
  subtrees := fun _ => 0
  parents := fun s => if s = 2 ∨ s = 3 then 1 else 0

/-- C8: the visit-derived distribution claimed for `policy` is
`n[edge[root, a]] / Σ_b n[edge[root, b]]` — `[3/5, 2/5]` on the example
arena — but the legacy `get_policy` reads the scalar `n_vals[1]` and
divides it by its own sum, returning the constant `1` instead. -/
theorem get_policy_returns_constant_one :
    get_policy c8state = 1 ∧
    spec_root_weights 2 c8state 0 = 3 / 5 ∧
    spec_root_weights 2 c8state 1 = 2 / 5 ∧
    get_policy c8state ≠ spec_root_weights 2 c8state 0 := by
  have h0 : get_policy c8state = 1 := by
    unfold get_policy c8state
    norm_num
  have h1 : spec_root_weights 2 c8state 0 = 3 / 5 := by
    unfold spec_root_weights c8state
    rw [Finset.sum_range_succ, Finset.sum_range_succ]
    norm_num
  have h2 : spec_root_weights 2 c8state 1 = 2 / 5 := by
    unfold spec_root_weights c8state
    rw [Finset.sum_range_succ, Finset.sum_range_succ]
    norm_num
  refine ⟨h0, h1, h2, ?_⟩
  rw [h0, h1]
  norm_num

/-! ## Claim C2: backpropagation along the parent chain -/

theorem upd_self {α : Type*} (f : ℕ → α) (i : ℕ) : upd f i (f i) = f := by
  funext j
  by_cases h : j = i <;> simp [upd, h]

@[simp] theorem update_node_parents {E : Type} (t : RTree E) (i : ℕ)
    (node : RNode E) : (update_node t i node).parents = t.parents := rfl

@[simp] theorem update_node_edge_map {E : Type} (t : RTree E) (i : ℕ)
    (node : RNode E) : (update_node t i node).edge_map = t.edge_map := rfl

@[simp] theorem update_node_next_empty {E : Type} (t : RTree E) (i : ℕ)
    (node : RNode E) : (update_node t i node).next_empty = t.next_empty := rfl

theorem backpropagate_parents {E : Type} (d : ℝ) (fuel : ℕ) :
    ∀ (t : RTree E) (idx : ℕ) (v : ℝ),
      (backpropagate d fuel t idx v).parents = t.parents := by
  induction fuel with
  | zero => intro t idx v; rfl
  | succ fuel ih =>
    intro t idx v
    unfold backpropagate
    split
    · rfl
    · rw [ih]; rfl

theorem backpropagate_edge_map {E : Type} (d : ℝ) (fuel : ℕ) :
    ∀ (t : RTree E) (idx : ℕ) (v : ℝ),
      (backpropagate d fuel t idx v).edge_map = t.edge_map := by
  induction fuel with
  | zero => intro t idx v; rfl
  | succ fuel ih =>
    intro t idx v
    unfold backpropagate
    split
    · rfl
    · rw [ih]; rfl

theorem backpropagate_next_empty {E : Type} (d : ℝ) (fuel : ℕ) :
    ∀ (t : RTree E) (idx : ℕ) (v : ℝ),
      (backpropagate d fuel t idx v).next_empty = t.next_empty := by
  induction fuel with
  | zero => intro t idx v; rfl
  | succ fuel ih =>
    intro t idx v
    unfold backpropagate
    split
    · rfl
    · rw [ih]; rfl

theorem backpropagate_terminals {E : Type} (d : ℝ) (fuel : ℕ) :
    ∀ (t : RTree E) (idx : ℕ) (v : ℝ),
      (backpropagate d fuel t idx v).terminals = t.terminals := by
  induction fuel with
  | zero => intro t idx v; rfl
  | succ fuel ih =>
    intro t idx v
    unfold backpropagate
    split
    · rfl
    · rw [ih]
      show upd t.terminals idx ((treeAt t idx).terminal) = t.terminals
      exact upd_self t.terminals idx

theorem backpropagate_pVals {E : Type} (d : ℝ) (fuel : ℕ) :
    ∀ (t : RTree E) (idx : ℕ) (v : ℝ),
      (backpropagate d fuel t idx v).pVals = t.pVals := by
  induction fuel with
  | zero => intro t idx v; rfl
  | succ fuel ih =>
    intro t idx v
    unfold backpropagate
    split
    · rfl
    · rw [ih]
      show upd t.pVals idx ((treeAt t idx).p) = t.pVals
      exact upd_self t.pVals idx

/-- Backpropagation walks parent pointers, which strictly decrease, so no
slot above the starting index is ever touched. -/
theorem backpropagate_above {E : Type} (d : ℝ) (fuel : ℕ) :
    ∀ (t : RTree E) (idx : ℕ) (v : ℝ) (u : ℕ),
      (∀ s, 1 ≤ s → t.parents s < s) → idx < u →
      (backpropagate d fuel t idx v).nVals u = t.nVals u ∧
      (backpropagate d fuel t idx v).wVals u = t.wVals u := by
  induction fuel with
  | zero => intro t idx v u _ _; exact ⟨rfl, rfl⟩
  | succ fuel ih =>
    intro t idx v u hpar hu
    by_cases hidx : idx = 0
    · unfold backpropagate
      rw [if_pos hidx]
      exact ⟨rfl, rfl⟩
    · have hlt : t.parents idx < idx := hpar idx (Nat.one_le_iff_ne_zero.mpr hidx)
      have hbp : backpropagate d (fuel + 1) t idx v =
          backpropagate d fuel (update_node t idx
            { treeAt t idx with
              n := (treeAt t idx).n + 1
              w := (treeAt t idx).w + v * d }) (t.parents idx) (v * d) := by
        conv_lhs => unfold backpropagate
        rw [if_neg hidx]
        rfl
      rw [hbp]
      have := ih (update_node t idx
        { treeAt t idx with
          n := (treeAt t idx).n + 1
          w := (treeAt t idx).w + v * d }) (t.parents idx) (v * d) u
        (by simpa using hpar) (lt_trans hlt hu)
      rcases this with ⟨hn, hw⟩
      constructor
      · rw [hn]
        exact upd_ne _ _ (by omega)
      · rw [hw]
        exact upd_ne _ _ (by omega)

/-- The chain of slots visited by walking parent pointers from `idx`
until the null sentinel 0, with explicit fuel. -/
def parentChain (parents : ℕ → ℕ) : ℕ → ℕ → List ℕ
  | 0, _ => []
  | fuel + 1, idx =>
    if idx = 0 then [] else idx :: parentChain parents fuel (parents idx)

theorem parentChain_mem {parents : ℕ → ℕ}
    (hpar : ∀ s, 1 ≤ s → parents s < s) :
    ∀ fuel idx x, x ∈ parentChain parents fuel idx → 1 ≤ x ∧ x ≤ idx := by
  intro fuel
  induction fuel with
  | zero => intro idx x hx; simp [parentChain] at hx
  | succ fuel ih =>
    intro idx x hx
    unfold parentChain at hx
    by_cases hidx : idx = 0
    · simp [hidx] at hx
    · rw [if_neg hidx] at hx
      rcases List.mem_cons.mp hx with h | h
      · omega
      · have := ih (parents idx) x h
        have := hpar idx (Nat.one_le_iff_ne_zero.mpr hidx)
        omega

theorem parentChain_congr {p₁ p₂ : ℕ → ℕ}
    (hpar : ∀ s, 1 ≤ s → p₁ s < s) :
    ∀ fuel idx, (∀ x, 1 ≤ x → x ≤ idx → p₁ x = p₂ x) →
      parentChain p₁ fuel idx = parentChain p₂ fuel idx := by
  intro fuel
  induction fuel with
  | zero => intro idx _; rfl
  | succ fuel ih =>
    intro idx hagree
    unfold parentChain
    by_cases hidx : idx = 0
    · simp [hidx]
    · have h1 : 1 ≤ idx := Nat.one_le_iff_ne_zero.mpr hidx
      rw [if_neg hidx, if_neg hidx]
      rw [ih (p₁ idx) (fun x hx1 hx2 => hagree x hx1 (by
        have := hpar idx h1
        omega))]
      rw [hagree idx h1 le_rfl]

theorem parentChain_nodup {parents : ℕ → ℕ}
    (hpar : ∀ s, 1 ≤ s → parents s < s) :
    ∀ fuel idx, (parentChain parents fuel idx).Nodup := by
  intro fuel
  induction fuel with
  | zero => intro idx; simp [parentChain]
  | succ fuel ih =>
    intro idx
    unfold parentChain
    by_cases hidx : idx = 0
    · simp [hidx]
    · rw [if_neg hidx]
      refine List.nodup_cons.mpr ⟨fun hmem => ?_, ih (parents idx)⟩
      have := parentChain_mem hpar fuel (parents idx) idx hmem
      have := hpar idx (Nat.one_le_iff_ne_zero.mpr hidx)
      omega

/-- The central backpropagation lemma: walking up from `idx`, the slot at
position `j` of the parent chain gains one visit and `v · d^(j+1)`
cumulative value; all slots off the chain are untouched. -/
theorem backpropagate_chain {E : Type} (d : ℝ) (fuel : ℕ) :
    ∀ (t : RTree E) (idx : ℕ) (v : ℝ),
      (∀ s, 1 ≤ s → t.parents s < s) → idx < fuel →
      (∀ j, j < (parentChain t.parents fuel idx).length →
        (backpropagate d fuel t idx v).nVals
            ((parentChain t.parents fuel idx).getD j 0) =
          t.nVals ((parentChain t.parents fuel idx).getD j 0) + 1 ∧
        (backpropagate d fuel t idx v).wVals
            ((parentChain t.parents fuel idx).getD j 0) =
          t.wVals ((parentChain t.parents fuel idx).getD j 0) +
            v * d ^ (j + 1)) ∧
      (∀ u, u ∉ parentChain t.parents fuel idx →
        (backpropagate d fuel t idx v).nVals u = t.nVals u ∧
        (backpropagate d fuel t idx v).wVals u = t.wVals u) := by
  induction fuel with
  | zero => intro t idx v _ h; omega
  | succ fuel ih =>
    intro t idx v hpar hfuel
    by_cases hidx : idx = 0
    · constructor
      · intro j hj
        rw [show parentChain t.parents (fuel + 1) idx = [] from by
          unfold parentChain; rw [if_pos hidx]] at hj
        simp at hj
      · intro u _
        unfold backpropagate
        rw [if_pos hidx]
        exact ⟨rfl, rfl⟩
    · have h1 : 1 ≤ idx := Nat.one_le_iff_ne_zero.mpr hidx
      have hplt : t.parents idx < idx := hpar idx h1
      set t₁ := update_node t idx
        { treeAt t idx with
          n := (treeAt t idx).n + 1
          w := (treeAt t idx).w + v * d } with ht₁
      have hparents : t₁.parents = t.parents := rfl
      have ht₁n : ∀ e, e ≠ idx → t₁.nVals e = t.nVals e := by
        intro e he
        rw [ht₁]
        exact upd_ne _ _ he
      have ht₁w : ∀ e, e ≠ idx → t₁.wVals e = t.wVals e := by
        intro e he
        rw [ht₁]
        exact upd_ne _ _ he
      have ht₁n_idx : t₁.nVals idx = t.nVals idx + 1 := by
        rw [ht₁]; exact upd_same _ _ _
      have ht₁w_idx : t₁.wVals idx = t.wVals idx + v * d := by
        rw [ht₁]; exact upd_same _ _ _
      have hpar₁ : ∀ s, 1 ≤ s → t₁.parents s < s := by
        rw [hparents]; exact hpar
      have hfuel₁ : t.parents idx < fuel := by omega
      have hrec := ih t₁ (t.parents idx) (v * d) hpar₁ hfuel₁
      rw [hparents] at hrec
      have hbp : backpropagate d (fuel + 1) t idx v =
          backpropagate d fuel t₁ (t.parents idx) (v * d) := by
        conv_lhs => unfold backpropagate
        rw [if_neg hidx]
        rfl
      have hchain : parentChain t.parents (fuel + 1) idx =
          idx :: parentChain t.parents fuel (t.parents idx) := by
        conv_lhs => unfold parentChain
        rw [if_neg hidx]
      have hmem_lt : ∀ x ∈ parentChain t.parents fuel (t.parents idx), x < idx := by
        intro x hx
        have := parentChain_mem hpar fuel (t.parents idx) x hx
        omega
      have hidxnot : idx ∉ parentChain t.parents fuel (t.parents idx) :=
        fun hmem => absurd (hmem_lt idx hmem) (lt_irrefl idx)
      constructor
      · intro j hj
        rw [hbp]
        match j with
        | 0 =>
          have hget : (parentChain t.parents (fuel + 1) idx).getD 0 0 = idx := by
            rw [hchain]; rfl
          rw [hget]
          rcases hrec.2 idx hidxnot with ⟨hn, hw⟩
          refine ⟨by rw [hn, ht₁n_idx], ?_⟩
          rw [hw, ht₁w_idx]
          ring
        | j + 1 =>
          have hlen : j < (parentChain t.parents fuel (t.parents idx)).length := by
            rw [hchain] at hj
            simpa using hj
          have hget : (parentChain t.parents (fuel + 1) idx).getD (j + 1) 0 =
              (parentChain t.parents fuel (t.parents idx)).getD j 0 := by
            rw [hchain]
            simp
          rw [hget]
          have he := hrec.1 j hlen
          have hemem : (parentChain t.parents fuel (t.parents idx)).getD j 0 ∈
              parentChain t.parents fuel (t.parents idx) := by
            rw [List.getD_eq_getElem _ _ hlen]
            exact List.getElem_mem hlen
          have helt : (parentChain t.parents fuel (t.parents idx)).getD j 0 < idx :=
            hmem_lt _ hemem
          rcases he with ⟨hn, hw⟩
          refine ⟨?_, ?_⟩
          · rw [hn, ht₁n _ (by omega)]
          · rw [hw, ht₁w _ (by omega)]
            ring
      · intro u hu
        rw [hbp]
        rw [hchain] at hu
        have hune : u ≠ idx := fun he => hu (he ▸ List.mem_cons_self _ _)
        have hunotin : u ∉ parentChain t.parents fuel (t.parents idx) :=
          fun hmem => hu (List.mem_cons_of_mem _ hmem)
        rcases hrec.2 u hunotin with ⟨hn, hw⟩
        exact ⟨by rw [hn, ht₁n u hune], by rw [hw, ht₁w u hune]⟩


/-- The per-slot effect of the legacy engine's scatter-add
backpropagation: a path slot recorded at position `k` of `visits` gains
one visit and `+value` or `-value` according to `reward_indices[k]`. -/
theorem legacy_backprop_signs (visits : ℕ → ℕ) (n w : ℕ → ℝ) (value : ℝ)
    (numPlayers m k : ℕ) (hk : k < m) (hv : 0 < visits k)
    (huni : ∀ k', k' < m → visits k' = visits k → k' = k) :
    scatterAdd n visits (leaf_inc visits true) m (visits k) =
      n (visits k) + 1 ∧
    scatterAdd w visits
        (backprop_rewards visits true (get_reward_indices numPlayers) value)
        m (visits k) =
      w (visits k) +
        (if get_reward_indices numPlayers k = 1 then value else -value) := by
  have hfilter : (Finset.range m).filter (fun k' => visits k' = visits k) = {k} := by
    ext k'
    simp only [Finset.mem_filter, Finset.mem_range, Finset.mem_singleton]
    constructor
    · rintro ⟨h1, h2⟩
      exact huni k' h1 h2
    · rintro rfl
      exact ⟨hk, rfl⟩
  constructor
  · rw [scatterAdd_eq, hfilter, Finset.sum_singleton]
    simp [leaf_inc, hv]
  · rw [scatterAdd_eq, hfilter, Finset.sum_singleton]
    unfold backprop_rewards leaf_inc get_reward_indices
    by_cases hmod : k % numPlayers = 0 <;> simp [hv, hmod]

/-- C2: expanding a leaf with value `v` and backpropagating touches the
leaf and each slot of the parent chain from the leaf's parent to the root
exactly once: every touched slot gains exactly one visit, the leaf gains
`v` (`= v·γ⁰`), the slot `k` plies above the leaf gains `v·γᵏ`
(position `k - 1` of the chain, which gains `v·γ^((k-1)+1)`), all other
slots are untouched, and the chain is duplicate-free.  The final
conjunct is the legacy engine's general per-player form: the slot
recorded at position `k` of the `visits` path gains one visit and
`+value` or `-value` according to `reward_indices[k]`. -/
theorem expand_and_backprop_path {E : Type} (alg : MCTSAlg E)
    (maxN fuel : ℕ) (t : RTree E) (parent action : ℕ) (v : ℝ)
    (policy : ℕ → ℝ) (term : Bool) (emb : E)
    (hpar : ∀ s, 1 ≤ s → t.parents s < s)
    (hfuel : parent < fuel)
    (halloc : parent < t.next_empty)
    (hedge : is_edge t parent action = true →
      parent < t.edge_map parent action)
    (hroom : is_edge t parent action = false →
      t.next_empty < maxN ∧ t.nVals t.next_empty = 0 ∧
        t.wVals t.next_empty = 0) :
    ((expand_and_backprop alg maxN fuel t parent action v policy term emb).nVals
        (if is_edge t parent action then t.edge_map parent action else t.next_empty) =
      t.nVals (if is_edge t parent action then t.edge_map parent action else t.next_empty) + 1 ∧
     (expand_and_backprop alg maxN fuel t parent action v policy term emb).wVals
        (if is_edge t parent action then t.edge_map parent action else t.next_empty) =
      t.wVals (if is_edge t parent action then t.edge_map parent action else t.next_empty) + v) ∧
    (∀ j, j < (parentChain t.parents fuel parent).length →
      (expand_and_backprop alg maxN fuel t parent action v policy term emb).nVals
          ((parentChain t.parents fuel parent).getD j 0) =
        t.nVals ((parentChain t.parents fuel parent).getD j 0) + 1 ∧
      (expand_and_backprop alg maxN fuel t parent action v policy term emb).wVals
          ((parentChain t.parents fuel parent).getD j 0) =
        t.wVals ((parentChain t.parents fuel parent).getD j 0) +
          v * alg.discount ^ (j + 1)) ∧
    (∀ u, u ≠ (if is_edge t parent action then t.edge_map parent action else t.next_empty) →
      u ∉ parentChain t.parents fuel parent →
      (expand_and_backprop alg maxN fuel t parent action v policy term emb).nVals u =
        t.nVals u ∧
      (expand_and_backprop alg maxN fuel t parent action v policy term emb).wVals u =
        t.wVals u) ∧
    (parentChain t.parents fuel parent).Nodup ∧
    (∀ (visits : ℕ → ℕ) (n w : ℕ → ℝ) (value : ℝ) (numPlayers m k : ℕ),
      k < m → 0 < visits k → (∀ k', k' < m → visits k' = visits k → k' = k) →
      scatterAdd n visits (leaf_inc visits true) m (visits k) =
        n (visits k) + 1 ∧
      scatterAdd w visits
          (backprop_rewards visits true (get_reward_indices numPlayers) value)
          m (visits k) =
        w (visits k) +
          (if get_reward_indices numPlayers k = 1 then value else -value)) := by
  have hchain_mem : ∀ x ∈ parentChain t.parents fuel parent, 1 ≤ x ∧ x ≤ parent :=
    parentChain_mem hpar fuel parent
  by_cases hN : is_edge t parent action
  · -- the child already exists (terminal-stop case): update it in place
    set nodeId := t.edge_map parent action with hnodeId
    have hplt : parent < nodeId := hedge hN
    set t₁ := update_node t nodeId
      { treeAt t nodeId with
        n := (treeAt t nodeId).n + 1
        w := (treeAt t nodeId).w + v
        p := policy
        terminal := term
        embedding := emb } with ht₁
    have heb : expand_and_backprop alg maxN fuel t parent action v policy term emb =
        backpropagate alg.discount fuel t₁ parent v := by
      simp only [expand_and_backprop]
      rw [if_pos hN]
    have hparents : t₁.parents = t.parents := rfl
    have hpar₁ : ∀ s, 1 ≤ s → t₁.parents s < s := by rw [hparents]; exact hpar
    have hrec := backpropagate_chain alg.discount fuel t₁ parent v hpar₁ hfuel
    rw [hparents] at hrec
    have ht₁n : ∀ e, e ≠ nodeId → t₁.nVals e = t.nVals e := by
      intro e he
      rw [ht₁]
      exact upd_ne _ _ he
    have ht₁w : ∀ e, e ≠ nodeId → t₁.wVals e = t.wVals e := by
      intro e he
      rw [ht₁]
      exact upd_ne _ _ he
    have hnotin : nodeId ∉ parentChain t.parents fuel parent := by
      intro hmem
      have := hchain_mem nodeId hmem
      omega
    refine ⟨?_, ?_, ?_, parentChain_nodup hpar fuel parent,
      fun visits n w value numPlayers m k hk hv huni =>
        legacy_backprop_signs visits n w value numPlayers m k hk hv huni⟩
    · rw [if_pos hN, heb]
      rcases hrec.2 nodeId hnotin with ⟨hn, hw⟩
      constructor
      · rw [hn, ht₁]
        exact upd_same _ _ _
      · rw [hw, ht₁]
        exact upd_same _ _ _
    · intro j hj
      rw [heb]
      rcases hrec.1 j hj with ⟨hn, hw⟩
      have hemem : (parentChain t.parents fuel parent).getD j 0 ∈
          parentChain t.parents fuel parent := by
        rw [List.getD_eq_getElem _ _ hj]
        exact List.getElem_mem hj
      have : (parentChain t.parents fuel parent).getD j 0 ≤ parent :=
        (hchain_mem _ hemem).2
      constructor
      · rw [hn, ht₁n _ (by omega)]
      · rw [hw, ht₁w _ (by omega)]
    · intro u hu hunot
      rw [if_pos hN] at hu
      rw [heb]
      rcases hrec.2 u hunot with ⟨hn, hw⟩
      exact ⟨by rw [hn, ht₁n u hu], by rw [hw, ht₁w u hu]⟩
  · -- new leaf: allocate at next_empty and backpropagate
    have hNe : is_edge t parent action = false := by
      simpa using hN
    obtain ⟨hroomlt, hn0, hw0⟩ := hroom hNe
    set t₁ := add_node maxN t parent action ⟨1, v, policy, term, emb⟩ with ht₁
    have heb : expand_and_backprop alg maxN fuel t parent action v policy term emb =
        backpropagate alg.discount fuel t₁ parent v := by
      simp only [expand_and_backprop]
      rw [if_neg hN]
    have ht₁eq : t₁ = { t with
        nVals := upd t.nVals t.next_empty 1
        wVals := upd t.wVals t.next_empty v
        pVals := upd t.pVals t.next_empty policy
        terminals := upd t.terminals t.next_empty term
        embeddings := upd t.embeddings t.next_empty emb
        edge_map := upd2 t.edge_map parent action t.next_empty
        parents := upd t.parents t.next_empty parent
        next_empty := t.next_empty + 1 } := by
      rw [ht₁]
      unfold add_node
      rw [if_pos hroomlt]
    have hparents : t₁.parents = upd t.parents t.next_empty parent := by
      rw [ht₁eq]
    have hpar₁ : ∀ s, 1 ≤ s → t₁.parents s < s := by
      rw [hparents]
      intro s hs
      by_cases he : s = t.next_empty
      · subst he
        rw [upd_same]
        exact halloc
      · rw [upd_ne _ _ he]
        exact hpar s hs
    have hchain₁ : parentChain t₁.parents fuel parent =
        parentChain t.parents fuel parent := by
      apply parentChain_congr hpar₁
      intro x hx1 hx2
      rw [hparents]
      exact upd_ne _ _ (by omega)
    have hrec := backpropagate_chain alg.discount fuel t₁ parent v hpar₁ hfuel
    rw [hchain₁] at hrec
    have ht₁n : ∀ e, e ≠ t.next_empty → t₁.nVals e = t.nVals e := by
      intro e he
      rw [ht₁eq]
      exact upd_ne _ _ he
    have ht₁w : ∀ e, e ≠ t.next_empty → t₁.wVals e = t.wVals e := by
      intro e he
      rw [ht₁eq]
      exact upd_ne _ _ he
    have hnotin : t.next_empty ∉ parentChain t.parents fuel parent := by
      intro hmem
      have := hchain_mem _ hmem
      omega
    refine ⟨?_, ?_, ?_, parentChain_nodup hpar fuel parent,
      fun visits n w value numPlayers m k hk hv huni =>
        legacy_backprop_signs visits n w value numPlayers m k hk hv huni⟩
    · rw [if_neg hN, heb]
      rcases hrec.2 t.next_empty hnotin with ⟨hn, hw⟩
      constructor
      · rw [hn, ht₁eq]
        show upd t.nVals t.next_empty 1 t.next_empty = t.nVals t.next_empty + 1
        rw [upd_same, hn0]
      · rw [hw, ht₁eq]
        show upd t.wVals t.next_empty v t.next_empty = t.wVals t.next_empty + v
        rw [upd_same, hw0]
        ring
    · intro j hj
      rw [heb]
      rcases hrec.1 j hj with ⟨hn, hw⟩
      have hemem : (parentChain t.parents fuel parent).getD j 0 ∈
          parentChain t.parents fuel parent := by
        rw [List.getD_eq_getElem _ _ hj]
        exact List.getElem_mem hj
      have : (parentChain t.parents fuel parent).getD j 0 ≤ parent :=
        (hchain_mem _ hemem).2
      constructor
      · rw [hn, ht₁n _ (by omega)]
      · rw [hw, ht₁w _ (by omega)]
    · intro u hu hunot
      rw [if_neg hN] at hu
      rw [heb]
      rcases hrec.2 u hunot with ⟨hn, hw⟩
      exact ⟨by rw [hn, ht₁n u hu], by rw [hw, ht₁w u hu]⟩

/-- A small arena over the trivial embedding: slots `1 ← 2` linked by
parent pointers, no edges, three slots allocated. -/
def tC2 : RTree Unit where
  key := 0
  nVals := fun _ => 0
  wVals := fun _ => 0
  pVals := fun _ _ => 0
  terminals := fun _ => false
  embeddings := fun _ => ()
  edge_map := fun _ _ => 0
  parents := fun s => s - 1
  next_empty := 3

theorem expand_and_backprop_path_witness :
    (2 < 3) ∧
    (((expand_and_backprop alg0 4 3 tC2 2 0 1 (fun _ => 0) false ()).nVals
        (if is_edge tC2 2 0 then tC2.edge_map 2 0 else tC2.next_empty) =
      tC2.nVals (if is_edge tC2 2 0 then tC2.edge_map 2 0 else tC2.next_empty) + 1 ∧
     (expand_and_backprop alg0 4 3 tC2 2 0 1 (fun _ => 0) false ()).wVals
        (if is_edge tC2 2 0 then tC2.edge_map 2 0 else tC2.next_empty) =
      tC2.wVals (if is_edge tC2 2 0 then tC2.edge_map 2 0 else tC2.next_empty) + 1) ∧
    (∀ j, j < (parentChain tC2.parents 3 2).length →
      (expand_and_backprop alg0 4 3 tC2 2 0 1 (fun _ => 0) false ()).nVals
          ((parentChain tC2.parents 3 2).getD j 0) =
        tC2.nVals ((parentChain tC2.parents 3 2).getD j 0) + 1 ∧
      (expand_and_backprop alg0 4 3 tC2 2 0 1 (fun _ => 0) false ()).wVals
          ((parentChain tC2.parents 3 2).getD j 0) =
        tC2.wVals ((parentChain tC2.parents 3 2).getD j 0) +
          1 * alg0.discount ^ (j + 1)) ∧
    (∀ u, u ≠ (if is_edge tC2 2 0 then tC2.edge_map 2 0 else tC2.next_empty) →
      u ∉ parentChain tC2.parents 3 2 →
      (expand_and_backprop alg0 4 3 tC2 2 0 1 (fun _ => 0) false ()).nVals u =
        tC2.nVals u ∧
      (expand_and_backprop alg0 4 3 tC2 2 0 1 (fun _ => 0) false ()).wVals u =
        tC2.wVals u) ∧
    (parentChain tC2.parents 3 2).Nodup ∧
    (∀ (visits : ℕ → ℕ) (n w : ℕ → ℝ) (value : ℝ) (numPlayers m k : ℕ),
      k < m → 0 < visits k → (∀ k', k' < m → visits k' = visits k → k' = k) →
      scatterAdd n visits (leaf_inc visits true) m (visits k) =
        n (visits k) + 1 ∧
      scatterAdd w visits
          (backprop_rewards visits true (get_reward_indices numPlayers) value)
          m (visits k) =
        w (visits k) +
          (if get_reward_indices numPlayers k = 1 then value else -value))) :=
  ⟨by norm_num,
    expand_and_backprop_path alg0 4 3 tC2 2 0 1 (fun _ => 0) false ()
      (fun s hs => by show s - 1 < s; omega)
      (by norm_num)
      (by show 2 < 3; norm_num)
      (fun h => by simp [is_edge, tC2] at h)
      (fun _ => ⟨by show (3 : ℕ) < 4; norm_num, rfl, rfl⟩)⟩

/-! ## Claim C9: all-illegal evaluated nodes -/

/-- A collaborator bundle whose environment reports an all-false legal
mask but `terminated = false`, with reward `1/4` and evaluator value
`1/2`. -/
noncomputable def algC9 : MCTSAlg Unit where
  step_fn := fun _ _ => ((), 1 / 4, false)
  eval_fn := fun _ => (fun _ => 0, 1 / 2)
  action_mask_fn := fun _ _ => false
  action_selection_fn := fun _ _ _ => 0
  discount := -1
  temperature := 1
  numActions := 2
  choice_fn := fun _ _ => 0

/-- C9 counterexample: with every action illegal at the evaluated node
but the environment not reporting termination, `iterate` stores the
evaluator's value `1/2` — not the environment reward `1/4` — and does not
mark the node terminal.  The all-false mask alone does not trigger the
terminal treatment. -/
theorem riterate_masked_not_terminal :
    (∀ a, algC9.action_mask_fn () a = false) ∧
    (riterate algC9 4 2 rtree0).terminals 2 = false ∧
    (riterate algC9 4 2 rtree0).wVals 2 = 1 / 2 ∧
    ((1 : ℝ) / 2 ≠ 1 / 4) := by
  refine ⟨fun a => rfl, ?_, ?_, by norm_num⟩
  · norm_num [riterate, rtraverse, traverse_loop, traverse_cond, is_edge,
      expand_and_backprop, add_node, backpropagate, update_node, treeAt,
      upd, upd2, rtree0, algC9]
  · norm_num [riterate, rtraverse, traverse_loop, traverse_cond, is_edge,
      expand_and_backprop, add_node, backpropagate, update_node, treeAt,
      upd, upd2, rtree0, algC9]

/-- C9 as amended: the expanded node is treated as terminal with the
environment-reported reward exactly when the environment reports
`terminated` — which is how positions with no legal move are signalled —
and in that case the value written and backpropagated is the reward, not
any quantity derived from the all-masked softmax. -/
theorem riterate_terminal_override {E : Type} (alg : MCTSAlg E)
    (maxN fuel : ℕ) (t : RTree E) (parent action : ℕ) (emb' : E)
    (reward : ℝ)
    (hts : rtraverse alg fuel t = ⟨parent, action⟩)
    (hstep : alg.step_fn (treeAt t parent).embedding action =
      (emb', reward, true))
    (hmask : ∀ a, alg.action_mask_fn emb' a = false)
    (hpar : ∀ s, 1 ≤ s → t.parents s < s)
    (halloc : parent < t.next_empty)
    (hedge : is_edge t parent action = true →
      parent < t.edge_map parent action)
    (hroom : is_edge t parent action = false →
      t.next_empty < maxN ∧ t.wVals t.next_empty = 0) :
    (riterate alg maxN fuel t).terminals
        (if is_edge t parent action then t.edge_map parent action else t.next_empty) =
      true ∧
    (riterate alg maxN fuel t).wVals
        (if is_edge t parent action then t.edge_map parent action else t.next_empty) =
      t.wVals
        (if is_edge t parent action then t.edge_map parent action else t.next_empty) +
        reward := by
  have hit : riterate alg maxN fuel t =
      expand_and_backprop alg maxN fuel t parent action reward
        (masked_softmax alg.numActions
          (alg.eval_fn emb').1 (alg.action_mask_fn emb')) true emb' := by
    simp only [riterate, hts, hstep, if_true]
  rw [hit]
  by_cases hN : is_edge t parent action
  · -- existing child updated in place
    have hplt : parent < t.edge_map parent action := hedge hN
    set nodeId := t.edge_map parent action with hnodeId
    set t₁ := update_node t nodeId
      { treeAt t nodeId with
        n := (treeAt t nodeId).n + 1
        w := (treeAt t nodeId).w + reward
        p := masked_softmax alg.numActions
          (alg.eval_fn emb').1 (alg.action_mask_fn emb')
        terminal := true
        embedding := emb' } with ht₁
    have heb : expand_and_backprop alg maxN fuel t parent action reward
        (masked_softmax alg.numActions
          (alg.eval_fn emb').1 (alg.action_mask_fn emb')) true emb' =
        backpropagate alg.discount fuel t₁ parent reward := by
      simp only [expand_and_backprop]
      rw [if_pos hN]
    rw [heb, if_pos hN]
    have hpar₁ : ∀ s, 1 ≤ s → t₁.parents s < s := hpar
    constructor
    · rw [backpropagate_terminals, ht₁]
      show upd t.terminals nodeId true nodeId = true
      exact upd_same _ _ _
    · rcases backpropagate_above alg.discount fuel t₁ parent reward nodeId
        hpar₁ hplt with ⟨_, hw⟩
      rw [hw, ht₁]
      exact upd_same _ _ _
  · have hNe : is_edge t parent action = false := by simpa using hN
    obtain ⟨hroomlt, hw0⟩ := hroom hNe
    set t₁ := add_node maxN t parent action
      ⟨1, reward,
        masked_softmax alg.numActions
          (alg.eval_fn emb').1 (alg.action_mask_fn emb'),
        true, emb'⟩ with ht₁
    have heb : expand_and_backprop alg maxN fuel t parent action reward
        (masked_softmax alg.numActions
          (alg.eval_fn emb').1 (alg.action_mask_fn emb')) true emb' =
        backpropagate alg.discount fuel t₁ parent reward := by
      simp only [expand_and_backprop]
      rw [if_neg hN]
    rw [heb, if_neg hN]
    have ht₁eq : t₁ = { t with
        nVals := upd t.nVals t.next_empty 1
        wVals := upd t.wVals t.next_empty reward
        pVals := upd t.pVals t.next_empty
          (masked_softmax alg.numActions
            (alg.eval_fn emb').1 (alg.action_mask_fn emb'))
        terminals := upd t.terminals t.next_empty true
        embeddings := upd t.embeddings t.next_empty emb'
        edge_map := upd2 t.edge_map parent action t.next_empty
        parents := upd t.parents t.next_empty parent
        next_empty := t.next_empty + 1 } := by
      rw [ht₁]
      unfold add_node
      rw [if_pos hroomlt]
    have hpar₁ : ∀ s, 1 ≤ s → t₁.parents s < s := by
      rw [ht₁eq]
      intro s hs
      by_cases he : s = t.next_empty
      · subst he
        show upd t.parents t.next_empty parent t.next_empty < t.next_empty
        rw [upd_same]
        exact halloc
      · show upd t.parents t.next_empty parent s < s
        rw [upd_ne _ _ he]
        exact hpar s hs
    constructor
    · rw [backpropagate_terminals, ht₁eq]
      show upd t.terminals t.next_empty true t.next_empty = true
      exact upd_same _ _ _
    · rcases backpropagate_above alg.discount fuel t₁ parent reward
        t.next_empty hpar₁ halloc with ⟨_, hw⟩
      rw [hw, ht₁eq]
      show upd t.wVals t.next_empty reward t.next_empty =
        t.wVals t.next_empty + reward
      rw [upd_same, hw0]
      ring

/-- A collaborator bundle whose environment reports an all-false legal
mask together with `terminated = true` and reward `1/4`. -/
noncomputable def algC9t : MCTSAlg Unit where
  step_fn := fun _ _ => ((), 1 / 4, true)
  eval_fn := fun _ => (fun _ => 0, 1 / 2)
  action_mask_fn := fun _ _ => false
  action_selection_fn := fun _ _ _ => 0
  discount := -1
  temperature := 1
  numActions := 2
  choice_fn := fun _ _ => 0

theorem riterate_terminal_override_witness :
    rtraverse algC9t 2 rtree0 = ⟨1, 0⟩ ∧
    ((riterate algC9t 4 2 rtree0).terminals
        (if is_edge rtree0 1 0 then rtree0.edge_map 1 0 else rtree0.next_empty) =
      true ∧
    (riterate algC9t 4 2 rtree0).wVals
        (if is_edge rtree0 1 0 then rtree0.edge_map 1 0 else rtree0.next_empty) =
      rtree0.wVals
        (if is_edge rtree0 1 0 then rtree0.edge_map 1 0 else rtree0.next_empty) +
        1 / 4) :=
  ⟨rfl,
    riterate_terminal_override algC9t 4 2 rtree0 1 0 () (1 / 4) rfl rfl
      (fun a => rfl)
      (fun s hs => by show rtree0.parents s < s; simp [rtree0]; omega)
      (by show (1 : ℕ) < 2; norm_num)
      (fun h => by simp [is_edge, rtree0] at h)
      (fun _ => ⟨by show (2 : ℕ) < 4; norm_num, rfl⟩)⟩

/-! ## Claim C7: terminal nodes are never expanded -/

/-- Traversal only moves the cursor to non-terminal children, so the
cursor's node stays non-terminal. -/
theorem traverse_loop_nonterminal {E : Type} (alg : MCTSAlg E)
    (t : RTree E) :
    ∀ fuel ts, t.terminals ts.parent = false →
      t.terminals (traverse_loop alg t fuel ts).parent = false := by
  intro fuel
  induction fuel with
  | zero => intro ts h; exact h
  | succ fuel ih =>
    intro ts h
    unfold traverse_loop
    by_cases hc : traverse_cond t ts
    · rw [if_pos hc]
      apply ih
      have : (treeAt t (t.edge_map ts.parent ts.action)).terminal = false := by
        unfold traverse_cond at hc
        rcases Bool.and_eq_true_iff.mp hc with ⟨_, h2⟩
        simpa using h2
      simpa [treeAt] using this
    · rw [if_neg hc]
      exact h

/-- Traversal only moves the cursor along populated edges, which point
into the allocated prefix of the arena. -/
theorem traverse_loop_parent_lt {E : Type} (alg : MCTSAlg E) (t : RTree E)
    (hchild : ∀ s a, t.edge_map s a ≠ 0 → t.edge_map s a < t.next_empty) :
    ∀ fuel ts, ts.parent < t.next_empty →
      (traverse_loop alg t fuel ts).parent < t.next_empty := by
  intro fuel
  induction fuel with
  | zero => intro ts h; exact h
  | succ fuel ih =>
    intro ts h
    unfold traverse_loop
    by_cases hc : traverse_cond t ts
    · rw [if_pos hc]
      apply ih
      unfold traverse_cond is_edge at hc
      rcases Bool.and_eq_true_iff.mp hc with ⟨h1, _⟩
      exact hchild ts.parent ts.action (by simpa using h1)
    · rw [if_neg hc]
      exact h

/-- With children strictly above their parents and at most `maxN` slots,
`maxN` steps of fuel are enough for the traversal loop to exit through
its own condition. -/
theorem traverse_loop_exits {E : Type} (alg : MCTSAlg E) (t : RTree E)
    (maxN : ℕ)
    (hchild : ∀ s a, t.edge_map s a ≠ 0 →
      s < t.edge_map s a ∧ t.edge_map s a < maxN) :
    ∀ fuel ts, ts.parent < maxN → maxN - ts.parent ≤ fuel →
      traverse_cond t (traverse_loop alg t fuel ts) = false := by
  intro fuel
  induction fuel with
  | zero => intro ts h1 h2; omega
  | succ fuel ih =>
    intro ts h1 h2
    unfold traverse_loop
    by_cases hc : traverse_cond t ts
    · rw [if_pos hc]
      have hedge : t.edge_map ts.parent ts.action ≠ 0 := by
        unfold traverse_cond is_edge at hc
        rcases Bool.and_eq_true_iff.mp hc with ⟨hh, _⟩
        simpa using hh
      obtain ⟨hgt, hlt⟩ := hchild ts.parent ts.action hedge
      exact ih _ hlt (by show maxN - t.edge_map ts.parent ts.action ≤ fuel; omega)
    · rw [if_neg hc]
      simpa using hc

/-- When the traversal has stopped and the stopping parent is
non-terminal, one expansion step preserves the invariant that terminal
nodes have no outgoing edges. -/
theorem expand_preserves_terminal_invariant {E : Type} (alg : MCTSAlg E)
    (maxN fuel : ℕ) (t : RTree E) (parent action : ℕ) (v : ℝ)
    (policy : ℕ → ℝ) (term : Bool) (emb : E)
    (hinv : ∀ s a, t.terminals s = true → t.edge_map s a = 0)
    (hpnt : t.terminals parent = false)
    (hstop : is_edge t parent action = true →
      t.terminals (t.edge_map parent action) = true)
    (hplt : parent < t.next_empty)
    (hfresh : ∀ s a, t.next_empty ≤ s → t.edge_map s a = 0) :
    ∀ s a, (expand_and_backprop alg maxN fuel t parent action v policy
        term emb).terminals s = true →
      (expand_and_backprop alg maxN fuel t parent action v policy
        term emb).edge_map s a = 0 := by
  intro s a
  by_cases hN : is_edge t parent action
  · set nodeId := t.edge_map parent action with hnodeId
    have heb : expand_and_backprop alg maxN fuel t parent action v policy term emb =
        backpropagate alg.discount fuel
          (update_node t nodeId
            { treeAt t nodeId with
              n := (treeAt t nodeId).n + 1
              w := (treeAt t nodeId).w + v
              p := policy
              terminal := term
              embedding := emb }) parent v := by
      simp only [expand_and_backprop]
      rw [if_pos hN]
    rw [heb, backpropagate_terminals, backpropagate_edge_map]
    intro hs
    show t.edge_map s a = 0
    have hterm_s : s = nodeId ∨ t.terminals s = true := by
      by_cases he : s = nodeId
      · exact Or.inl he
      · right
        have : upd t.terminals nodeId term s = true := hs
        rwa [upd_ne _ _ he] at this
    rcases hterm_s with he | ht
    · rw [he]
      exact hinv nodeId a (hstop hN)
    · exact hinv s a ht
  · have heb : expand_and_backprop alg maxN fuel t parent action v policy term emb =
        backpropagate alg.discount fuel
          (add_node maxN t parent action ⟨1, v, policy, term, emb⟩) parent v := by
      simp only [expand_and_backprop]
      rw [if_neg hN]
    rw [heb, backpropagate_terminals, backpropagate_edge_map]
    unfold add_node
    by_cases hroom : t.next_empty < maxN
    · rw [if_pos hroom]
      intro hs
      show upd2 t.edge_map parent action t.next_empty s a = 0
      by_cases he : s = t.next_empty
      · have hne : ¬(s = parent ∧ a = action) := by
          rintro ⟨hp, -⟩
          omega
        show (if s = parent ∧ a = action then t.next_empty else t.edge_map s a) = 0
        rw [if_neg hne, he]
        exact hfresh t.next_empty a le_rfl
      · have hts : t.terminals s = true := by
          have : upd t.terminals t.next_empty term s = true := hs
          rwa [upd_ne _ _ he] at this
        have hsp : s ≠ parent := fun he => by
          rw [he] at hts
          rw [hts] at hpnt
          exact absurd hpnt (by simp)
        show (if s = parent ∧ a = action then t.next_empty else t.edge_map s a) = 0
        rw [if_neg (fun ⟨hp, _⟩ => hsp hp)]
        exact hinv s a hts
    · rw [if_neg hroom]
      exact hinv s a

/-- C7: a terminal node is never expanded — the traversal's returned
parent (the only node an action is selected from at the stopping point)
is non-terminal, the traversal loop has exited through its condition (so
it stopped at a missing edge or a terminal child rather than descending
further), and one full iteration preserves the invariant that no
terminal node has a populated outgoing edge. -/
theorem terminal_nodes_never_expanded {E : Type} (alg : MCTSAlg E)
    (maxN fuel : ℕ) (t : RTree E)
    (hmaxN : 2 ≤ maxN)
    (hfuel : maxN ≤ fuel)
    (hroot : t.terminals 1 = false)
    (hinv : ∀ s a, t.terminals s = true → t.edge_map s a = 0)
    (hchild : ∀ s a, t.edge_map s a ≠ 0 →
      s < t.edge_map s a ∧ t.edge_map s a < maxN ∧
        t.edge_map s a < t.next_empty)
    (hfresh : ∀ s a, t.next_empty ≤ s → t.edge_map s a = 0)
    (hne2 : 2 ≤ t.next_empty) :
    t.terminals (rtraverse alg fuel t).parent = false ∧
    traverse_cond t (rtraverse alg fuel t) = false ∧
    (∀ s a, (riterate alg maxN fuel t).terminals s = true →
      (riterate alg maxN fuel t).edge_map s a = 0) := by
  have hnt : t.terminals (rtraverse alg fuel t).parent = false :=
    traverse_loop_nonterminal alg t fuel _ hroot
  have hexit : traverse_cond t (rtraverse alg fuel t) = false :=
    traverse_loop_exits alg t maxN
      (fun s a h => ⟨(hchild s a h).1, (hchild s a h).2.1⟩) fuel _
      (by show (1 : ℕ) < maxN; omega) (by show maxN - 1 ≤ fuel; omega)
  have hplt : (rtraverse alg fuel t).parent < t.next_empty :=
    traverse_loop_parent_lt alg t (fun s a h => (hchild s a h).2.2) fuel _
      (by show (1 : ℕ) < t.next_empty; omega)
  refine ⟨hnt, hexit, ?_⟩
  have hstop : is_edge t (rtraverse alg fuel t).parent
      (rtraverse alg fuel t).action = true →
      t.terminals (t.edge_map (rtraverse alg fuel t).parent
        (rtraverse alg fuel t).action) = true := by
    intro he
    unfold traverse_cond at hexit
    rw [he] at hexit
    simp only [Bool.true_and, Bool.not_eq_true'] at hexit
    simpa [treeAt] using hexit
  intro s a hs
  have hit : riterate alg maxN fuel t =
      expand_and_backprop alg maxN fuel t (rtraverse alg fuel t).parent
        (rtraverse alg fuel t).action
        (if (alg.step_fn (treeAt t (rtraverse alg fuel t).parent).embedding
              (rtraverse alg fuel t).action).2.2 then
          (alg.step_fn (treeAt t (rtraverse alg fuel t).parent).embedding
              (rtraverse alg fuel t).action).2.1
        else (alg.eval_fn (alg.step_fn
              (treeAt t (rtraverse alg fuel t).parent).embedding
              (rtraverse alg fuel t).action).1).2)
        (masked_softmax alg.numActions
          (alg.eval_fn (alg.step_fn
            (treeAt t (rtraverse alg fuel t).parent).embedding
            (rtraverse alg fuel t).action).1).1
          (alg.action_mask_fn (alg.step_fn
            (treeAt t (rtraverse alg fuel t).parent).embedding
            (rtraverse alg fuel t).action).1))
        (alg.step_fn (treeAt t (rtraverse alg fuel t).parent).embedding
          (rtraverse alg fuel t).action).2.2
        (alg.step_fn (treeAt t (rtraverse alg fuel t).parent).embedding
          (rtraverse alg fuel t).action).1 := rfl
  rw [hit] at hs ⊢
  exact expand_preserves_terminal_invariant alg maxN fuel t _ _ _ _ _ _
    hinv hnt hstop hplt hfresh s a hs

theorem terminal_nodes_never_expanded_witness :
    (2 ≤ 2 ∧ rtree0.terminals 1 = false) ∧
    (rtree0.terminals (rtraverse alg0 2 rtree0).parent = false ∧
    traverse_cond rtree0 (rtraverse alg0 2 rtree0) = false ∧
    (∀ s a, (riterate alg0 2 2 rtree0).terminals s = true →
      (riterate alg0 2 2 rtree0).edge_map s a = 0)) :=
  ⟨⟨le_rfl, rfl⟩,
    terminal_nodes_never_expanded alg0 2 2 rtree0 le_rfl le_rfl rfl
      (fun s a h => rfl)
      (fun s a h => absurd rfl h)
      (fun s a _ => rfl)
      le_rfl⟩

/-! ## Claim C4: allocator invariant and graceful arena exhaustion -/

theorem label_iter_zero (parents : ℕ → ℕ) (h0 : parents 0 = 0) :
    ∀ k, label_iter parents k 0 = 0 := by
  intro k
  induction k with
  | zero => rfl
  | succ k ih =>
    show label_step parents (label_iter parents k) 0 = 0
    unfold label_step
    rw [h0, ih]
    simp

theorem label_iter_one (parents : ℕ → ℕ) (h0 : parents 0 = 0)
    (h1 : parents 1 = 0) : ∀ k, label_iter parents k 1 = 1 := by
  intro k
  induction k with
  | zero => rfl
  | succ k ih =>
    show label_step parents (label_iter parents k) 1 = 1
    unfold label_step
    rw [h1, label_iter_zero parents h0, ih]
    simp

theorem bcumsum_le (g : ℕ → Bool) (h0 : g 0 = false) (h1 : g 1 = false) :
    ∀ s, bcumsum g s ≤ s - 1 := by
  intro s
  induction s with
  | zero =>
    unfold bcumsum
    rw [Finset.sum_range_one, h0]
    simp
  | succ s ih =>
    have hstep : bcumsum g (s + 1) =
        bcumsum g s + (if g (s + 1) then 1 else 0) := by
      unfold bcumsum
      rw [Finset.sum_range_succ]
    rw [hstep]
    have hind : (if g (s + 1) then (1 : ℕ) else 0) ≤ 1 := by
      split <;> omega
    by_cases hs : s = 0
    · subst hs
      have hb0 : bcumsum g 0 = 0 := by
        unfold bcumsum
        rw [Finset.sum_range_one, h0]
        simp
      have hind1 : (if g (0 + 1) then (1 : ℕ) else 0) = 0 := by
        rw [show (0 + 1) = 1 from rfl, h1]
        simp
      omega
    · omega

/-- The compacted `next_empty` computed by `load_subtree` stays within
`[2, maxNodes]` provided the root's parent pointer is the null sentinel. -/
theorem load_subtree_next_empty_bounds (maxNodes : ℕ) (st : MCTSState)
    (action : ℕ) (hmax : 2 ≤ maxNodes) (hp1 : st.parents 1 = 0) :
    2 ≤ (load_subtree maxNodes st action).next_empty ∧
      (load_subtree maxNodes st action).next_empty ≤ maxNodes := by
  have hparents0 : upd st.parents 0 0 0 = 0 := upd_same _ _ _
  have hparents1 : upd st.parents 0 0 1 = 0 := by
    rw [upd_ne _ _ (by omega)]
    exact hp1
  set stp := propagate_root_subtrees maxNodes st with hstp
  set master := stp.idx_action_map 1 action with hmaster
  have hlabel0 : stp.subtrees 0 = 0 :=
    label_iter_zero (upd st.parents 0 0) hparents0 maxNodes
  have hlabel1 : stp.subtrees 1 = 1 :=
    label_iter_one (upd st.parents 0 0) hparents0 hparents1 maxNodes
  have htrans_le : ∀ s, load_translation stp master s ≤ s - 1 := by
    intro s
    unfold load_translation
    split
    · rename_i hcase
      apply bcumsum_le
      · unfold load_new_nodes
        rw [hlabel0]
        simp only [decide_eq_false_iff_not]
        omega
      · unfold load_new_nodes
        rw [hlabel1]
        simp only [decide_eq_false_iff_not]
        omega
    · omega
  have hsup : (Finset.range maxNodes).sup (load_translation stp master) ≤
      maxNodes - 2 := by
    apply Finset.sup_le
    intro s hs
    rw [Finset.mem_range] at hs
    have := htrans_le s
    omega
  constructor
  · show 2 ≤ max 2 _
    omega
  · show max 2 ((Finset.range maxNodes).sup (load_translation stp master) + 1) ≤ maxNodes
    omega

/-- C4: the allocator invariant `1 ≤ next_empty ≤ MAX_NODES` holds after
`reset` and is preserved by `traverse`, by a full iteration (which never
changes `next_empty` beyond its `traverse`), and by subtree promotion;
and when the arena is full and the selected child is missing, `traverse`
is an allocation no-op (`next_empty` unchanged, cursor parked on the
sentinel, `unvisited` reported, the path record cleared at the current
depth) and the iteration's scatter-add backpropagation touches only the
slots recorded in the existing path. -/
theorem allocator_invariant (maxNodes : ℕ) (hmax : 2 ≤ maxNodes) :
    (1 ≤ reset.next_empty ∧ reset.next_empty ≤ maxNodes) ∧
    (∀ st a, 1 ≤ st.next_empty → st.next_empty ≤ maxNodes →
      1 ≤ (traverse maxNodes st a).1.next_empty ∧
        (traverse maxNodes st a).1.next_empty ≤ maxNodes) ∧
    (∀ (A numPlayers : ℕ) (c : ℝ) (legal : ℕ → Bool) (terminated : Bool)
        (reward evaluation : ℝ) (policy : ℕ → ℝ) (st : MCTSState),
      (legacy_iterate maxNodes A numPlayers c legal terminated reward
          evaluation policy st).next_empty =
        (traverse maxNodes st (choose_with_puct c A st legal)).1.next_empty) ∧
    (∀ st a, st.parents 1 = 0 →
      1 ≤ (load_subtree maxNodes st a).next_empty ∧
        (load_subtree maxNodes st a).next_empty ≤ maxNodes) ∧
    (∀ st a, st.next_empty = maxNodes → st.idx_action_map st.cur_node a = 0 →
      (traverse maxNodes st a).1.next_empty = maxNodes ∧
      (traverse maxNodes st a).1.cur_node = 0 ∧
      (traverse maxNodes st a).2 = true ∧
      (traverse maxNodes st a).1.visits st.depth = 0) ∧
    (∀ (A numPlayers : ℕ) (c : ℝ) (legal : ℕ → Bool) (terminated : Bool)
        (reward evaluation : ℝ) (policy : ℕ → ℝ) (st : MCTSState) (u : ℕ),
      (∀ k, k < maxNodes - 1 →
        (traverse maxNodes st (choose_with_puct c A st legal)).1.visits k ≠ u) →
      (legacy_iterate maxNodes A numPlayers c legal terminated reward
          evaluation policy st).n_vals u = st.n_vals u ∧
      (legacy_iterate maxNodes A numPlayers c legal terminated reward
          evaluation policy st).w_vals u = st.w_vals u) := by
  refine ⟨⟨by norm_num [reset], by norm_num [reset]; omega⟩, ?_, ?_, ?_, ?_, ?_⟩
  · intro st a h1 h2
    unfold traverse
    by_cases hb : (¬(maxNodes ≤ st.next_empty ∧ st.idx_action_map st.cur_node a = 0)) ∧
        st.idx_action_map st.cur_node a = 0
    · simp only [if_pos hb]
      constructor
      · omega
      · have : st.next_empty < maxNodes := by
          rcases hb with ⟨hnb, hu⟩
          omega
        omega
    · simp only [if_neg hb]
      exact ⟨h1, h2⟩
  · intro A numPlayers c legal terminated reward evaluation policy st
    rfl
  · intro st a hp1
    have := load_subtree_next_empty_bounds maxNodes st a hmax hp1
    omega
  · intro st a hfull hmiss
    have hb : ¬((¬(maxNodes ≤ st.next_empty ∧ st.idx_action_map st.cur_node a = 0)) ∧
        st.idx_action_map st.cur_node a = 0) := by
      rw [hfull, hmiss]
      simp
    unfold traverse
    simp only [if_neg hb]
    refine ⟨hfull, hmiss, by simp [hmiss], ?_⟩
    show upd st.visits st.depth (st.idx_action_map st.cur_node a) st.depth = 0
    rw [upd_same, hmiss]
  · intro A numPlayers c legal terminated reward evaluation policy st u hnone
    constructor
    · show scatterAdd _ _ _ (maxNodes - 1) u = st.n_vals u
      rw [scatterAdd_eq]
      have : (Finset.range (maxNodes - 1)).filter
          (fun k => (traverse maxNodes st (choose_with_puct c A st legal)).1.visits k = u) = ∅ := by
        apply Finset.filter_eq_empty_iff.mpr
        intro k hk
        exact hnone k (Finset.mem_range.mp hk)
      rw [this, Finset.sum_empty, add_zero]
      rfl
    · show scatterAdd _ _ _ (maxNodes - 1) u = st.w_vals u
      rw [scatterAdd_eq]
      have : (Finset.range (maxNodes - 1)).filter
          (fun k => (traverse maxNodes st (choose_with_puct c A st legal)).1.visits k = u) = ∅ := by
        apply Finset.filter_eq_empty_iff.mpr
        intro k hk
        exact hnone k (Finset.mem_range.mp hk)
      rw [this, Finset.sum_empty, add_zero]
      rfl

theorem allocator_invariant_witness :
    2 ≤ 2 ∧
    ((1 ≤ reset.next_empty ∧ reset.next_empty ≤ 2) ∧
    (∀ st a, 1 ≤ st.next_empty → st.next_empty ≤ 2 →
      1 ≤ (traverse 2 st a).1.next_empty ∧
        (traverse 2 st a).1.next_empty ≤ 2) ∧
    (∀ (A numPlayers : ℕ) (c : ℝ) (legal : ℕ → Bool) (terminated : Bool)
        (reward evaluation : ℝ) (policy : ℕ → ℝ) (st : MCTSState),
      (legacy_iterate 2 A numPlayers c legal terminated reward
          evaluation policy st).next_empty =
        (traverse 2 st (choose_with_puct c A st legal)).1.next_empty) ∧
    (∀ st a, st.parents 1 = 0 →
      1 ≤ (load_subtree 2 st a).next_empty ∧
        (load_subtree 2 st a).next_empty ≤ 2) ∧
    (∀ st a, st.next_empty = 2 → st.idx_action_map st.cur_node a = 0 →
      (traverse 2 st a).1.next_empty = 2 ∧
      (traverse 2 st a).1.cur_node = 0 ∧
      (traverse 2 st a).2 = true ∧
      (traverse 2 st a).1.visits st.depth = 0) ∧
    (∀ (A numPlayers : ℕ) (c : ℝ) (legal : ℕ → Bool) (terminated : Bool)
        (reward evaluation : ℝ) (policy : ℕ → ℝ) (st : MCTSState) (u : ℕ),
      (∀ k, k < 2 - 1 →
        (traverse 2 st (choose_with_puct c A st legal)).1.visits k ≠ u) →
      (legacy_iterate 2 A numPlayers c legal terminated reward
          evaluation policy st).n_vals u = st.n_vals u ∧
      (legacy_iterate 2 A numPlayers c legal terminated reward
          evaluation policy st).w_vals u = st.w_vals u)) :=
  ⟨le_rfl, allocator_invariant 2 le_rfl⟩

/-! ## Claim C3: subtree promotion

The label propagation of `propagate_root_subtrees` converges to the
top-level child-of-root ancestor of each slot.  `top_label` names the
limit: follow parent pointers until the parent is the root (1) or the
sentinel (0). -/

/-- Follow parent pointers upward (with explicit fuel) until the parent
drops to the root or the sentinel; the result is the top-level
child-of-root ancestor. -/
def top_label_aux (parents : ℕ → ℕ) : ℕ → ℕ → ℕ
  | 0, s => s
  | f + 1, s => if parents s ≤ 1 then s else top_label_aux parents f (parents s)

/-- The limit of the label propagation at slot `s`: its top-level
child-of-root ancestor (`s` itself when `s` hangs directly under the
root or the sentinel). -/
def top_label (parents : ℕ → ℕ) (s : ℕ) : ℕ :=
  top_label_aux parents s s

theorem top_label_aux_stable (parents : ℕ → ℕ) (B : ℕ)
    (h0 : parents 0 = 0)
    (hdec : ∀ x, 1 ≤ x → x < B → parents x < x) :
    ∀ s, s < B → ∀ f, s ≤ f →
      top_label_aux parents f s = top_label parents s := by
  intro s
  induction s using Nat.strong_induction_on with
  | _ s ih =>
    intro hsB f hf
    match s, f with
    | 0, 0 => rfl
    | 0, f + 1 =>
      show (if parents 0 ≤ 1 then 0 else top_label_aux parents f (parents 0)) =
        top_label parents 0
      rw [if_pos (by omega : parents 0 ≤ 1)]
      rfl
    | s + 1, f + 1 =>
      have hplt : parents (s + 1) < s + 1 := hdec (s + 1) (by omega) hsB
      show (if parents (s + 1) ≤ 1 then s + 1
            else top_label_aux parents f (parents (s + 1))) =
        top_label parents (s + 1)
      have hRHS : top_label parents (s + 1) =
          (if parents (s + 1) ≤ 1 then s + 1
           else top_label_aux parents s (parents (s + 1))) := rfl
      by_cases hp : parents (s + 1) ≤ 1
      · rw [if_pos hp, hRHS, if_pos hp]
      · rw [if_neg hp, hRHS, if_neg hp]
        rw [ih (parents (s + 1)) hplt (by omega) f (by omega)]
        rw [ih (parents (s + 1)) hplt (by omega) s (by omega)]

theorem top_label_unfold (parents : ℕ → ℕ) (B : ℕ)
    (h0 : parents 0 = 0)
    (hdec : ∀ x, 1 ≤ x → x < B → parents x < x) (s : ℕ) (hs : s < B)
    (hs1 : 1 ≤ s) :
    top_label parents s =
      if parents s ≤ 1 then s else top_label parents (parents s) := by
  have hplt : parents s < s := hdec s hs1 hs
  match s, hs1 with
  | s + 1, _ =>
    show (if parents (s + 1) ≤ 1 then s + 1
          else top_label_aux parents s (parents (s + 1))) = _
    by_cases hp : parents (s + 1) ≤ 1
    · rw [if_pos hp, if_pos hp]
    · rw [if_neg hp, if_neg hp]
      exact top_label_aux_stable parents B h0 hdec (parents (s + 1))
        (by omega) s (by omega)

theorem top_label_le_self (parents : ℕ → ℕ) (B : ℕ)
    (h0 : parents 0 = 0)
    (hdec : ∀ x, 1 ≤ x → x < B → parents x < x) :
    ∀ s, s < B → top_label parents s ≤ s := by
  intro s
  induction s using Nat.strong_induction_on with
  | _ s ih =>
    intro hsB
    by_cases hs1 : 1 ≤ s
    · rw [top_label_unfold parents B h0 hdec s hsB hs1]
      by_cases hp : parents s ≤ 1
      · rw [if_pos hp]
      · rw [if_neg hp]
        have hplt : parents s < s := hdec s hs1 hsB
        have := ih (parents s) hplt (by omega)
        omega
    · have : s = 0 := by omega
      subst this
      exact le_rfl

theorem top_label_ge_two (parents : ℕ → ℕ) (B : ℕ)
    (h0 : parents 0 = 0)
    (hdec : ∀ x, 1 ≤ x → x < B → parents x < x) :
    ∀ s, 2 ≤ s → s < B → 2 ≤ top_label parents s := by
  intro s
  induction s using Nat.strong_induction_on with
  | _ s ih =>
    intro hs2 hsB
    rw [top_label_unfold parents B h0 hdec s hsB (by omega)]
    by_cases hp : parents s ≤ 1
    · rw [if_pos hp]; exact hs2
    · rw [if_neg hp]
      have hplt : parents s < s := hdec s (by omega) hsB
      exact ih (parents s) hplt (by omega) (by omega)

theorem top_label_one (parents : ℕ → ℕ) (h1 : parents 1 = 0) :
    top_label parents 1 = 1 := by
  show (if parents 1 ≤ 1 then 1 else top_label_aux parents 0 (parents 1)) = 1
  rw [if_pos (by omega)]

/-- A slot hanging directly under the root or the sentinel keeps its own
label under propagation. -/
theorem label_iter_fixed (parents : ℕ → ℕ) (h0 : parents 0 = 0)
    (h1 : parents 1 = 0) (s : ℕ) (hp : parents s ≤ 1) :
    ∀ k, label_iter parents k s = s := by
  intro k
  induction k with
  | zero => rfl
  | succ k ih =>
    show label_step parents (label_iter parents k) s = s
    unfold label_step
    have hle : label_iter parents k (parents s) ≤ 1 := by
      rcases Nat.le_one_iff_eq_zero_or_eq_one.mp hp with h | h
      · rw [h, label_iter_zero parents h0]
        omega
      · rw [h, label_iter_one parents h0 h1]
    rw [if_neg (by omega), ih]

/-- The label propagation of `propagate_root_subtrees` reaches its limit:
after at least `s` iterations, slot `s` is labelled with its top-level
child-of-root ancestor. -/
theorem label_iter_eq_top_label (parents : ℕ → ℕ) (B : ℕ)
    (h0 : parents 0 = 0) (h1 : parents 1 = 0)
    (hdec : ∀ x, 1 ≤ x → x < B → parents x < x) :
    ∀ k s, s < B → s ≤ k → label_iter parents k s = top_label parents s := by
  intro k
  induction k with
  | zero =>
    intro s hsB hs
    have : s = 0 := by omega
    subst this
    rfl
  | succ k ih =>
    intro s hsB hs
    by_cases hs1 : 1 ≤ s
    · by_cases hp : parents s ≤ 1
      · rw [label_iter_fixed parents h0 h1 s hp,
          top_label_unfold parents B h0 hdec s hsB hs1, if_pos hp]
      · have hplt : parents s < s := hdec s hs1 hsB
        have hrec : label_iter parents k (parents s) =
            top_label parents (parents s) :=
          ih (parents s) (by omega) (by omega)
        have htop2 : 2 ≤ top_label parents (parents s) :=
          top_label_ge_two parents B h0 hdec (parents s) (by omega) (by omega)
        show label_step parents (label_iter parents k) s = top_label parents s
        unfold label_step
        rw [hrec, if_pos (by omega),
          top_label_unfold parents B h0 hdec s hsB hs1, if_neg hp]
    · have : s = 0 := by omega
      subst this
      rw [label_iter_zero parents h0]
      rfl

theorem bcumsum_mono (g : ℕ → Bool) {t u : ℕ} (h : t ≤ u) :
    bcumsum g t ≤ bcumsum g u := by
  unfold bcumsum
  apply Finset.sum_le_sum_of_subset
  intro x hx
  rw [Finset.mem_range] at hx ⊢
  omega

theorem bcumsum_strict (g : ℕ → Bool) {t u : ℕ} (ht : t < u)
    (hu : g u = true) : bcumsum g t < bcumsum g u := by
  have h1 : bcumsum g t ≤ bcumsum g (u - 1) := bcumsum_mono g (by omega)
  have h2 : bcumsum g u = bcumsum g (u - 1) + 1 := by
    have hu1 : u - 1 + 1 = u := by omega
    show (∑ x ∈ Finset.range (u + 1), if g x then 1 else 0) =
      (∑ x ∈ Finset.range (u - 1 + 1), if g x then 1 else 0) + 1
    rw [hu1, Finset.sum_range_succ, hu]
    simp
  omega

theorem bcumsum_pos (g : ℕ → Bool) (s : ℕ) (hs : g s = true) :
    1 ≤ bcumsum g s := by
  unfold bcumsum
  calc (1 : ℕ) = if g s then 1 else 0 := by rw [hs]; rfl
    _ ≤ ∑ t ∈ Finset.range (s + 1), if g t then 1 else 0 :=
        Finset.single_le_sum (f := fun t => if g t then (1 : ℕ) else 0)
          (fun _ _ => by positivity) (Finset.self_mem_range_succ s)

theorem bcumsum_eq_one_of_first (g : ℕ → Bool) (s : ℕ) (hs : g s = true)
    (hbelow : ∀ t, t < s → g t = false) : bcumsum g s = 1 := by
  unfold bcumsum
  rw [Finset.sum_range_succ, hs]
  have : (∑ t ∈ Finset.range s, if g t then (1 : ℕ) else 0) = 0 := by
    apply Finset.sum_eq_zero
    intro t ht
    rw [hbelow t (Finset.mem_range.mp ht)]
    rfl
  rw [this]
  rfl

/-- Reachability through the dense edge map: `EdgeReach edge r s` holds
when `s` lies in the subtree rooted at `r` (following populated edges). -/
inductive EdgeReach (edge : ℕ → ℕ → ℕ) : ℕ → ℕ → Prop where
  | refl (s : ℕ) : EdgeReach edge s s
  | step {s t u : ℕ} (a : ℕ) : EdgeReach edge s t → edge t a = u →
      u ≠ 0 → EdgeReach edge s u

/-- C3: subtree promotion retains exactly the committed child's subtree.
Under the arena invariants, after `load_subtree` on action `a*` with
populated child `edge[1, a*]`: the new root (slot 1) carries the
pre-promotion child's `n`, `w` and prior row; every pre-promotion
descendant `s` of the child keeps its `n`, `w` and prior row at its
compacted index `τ(s)` and is reachable from the new root in the new
edge map; and every slot at or beyond the new `next_empty` is zeroed. -/
theorem load_subtree_promotes (maxNodes : ℕ) (st : MCTSState) (action : ℕ)
    (hne2 : 2 ≤ st.next_empty) (hneub : st.next_empty ≤ maxNodes)
    (hp1 : st.parents 1 = 0)
    (hpar : ∀ s, s < st.next_empty → 2 ≤ s →
      1 ≤ st.parents s ∧ st.parents s < s)
    (hpun : ∀ s, s < maxNodes → st.next_empty ≤ s → st.parents s = 0)
    (hedge : ∀ s a, st.idx_action_map s a = 0 ∨
      (2 ≤ st.idx_action_map s a ∧ st.idx_action_map s a < st.next_empty ∧
        st.parents (st.idx_action_map s a) = s))
    (hmaster : st.idx_action_map 1 action ≠ 0) :
    ((load_subtree maxNodes st action).n_vals 1 =
        st.n_vals (st.idx_action_map 1 action) ∧
      (load_subtree maxNodes st action).w_vals 1 =
        st.w_vals (st.idx_action_map 1 action) ∧
      (load_subtree maxNodes st action).p_vals 1 =
        st.p_vals (st.idx_action_map 1 action)) ∧
    (∀ s, EdgeReach st.idx_action_map (st.idx_action_map 1 action) s →
      (load_subtree maxNodes st action).n_vals
          (load_translation (propagate_root_subtrees maxNodes st)
            (st.idx_action_map 1 action) s) = st.n_vals s ∧
      (load_subtree maxNodes st action).w_vals
          (load_translation (propagate_root_subtrees maxNodes st)
            (st.idx_action_map 1 action) s) = st.w_vals s ∧
      (load_subtree maxNodes st action).p_vals
          (load_translation (propagate_root_subtrees maxNodes st)
            (st.idx_action_map 1 action) s) = st.p_vals s ∧
      EdgeReach (load_subtree maxNodes st action).idx_action_map 1
        (load_translation (propagate_root_subtrees maxNodes st)
          (st.idx_action_map 1 action) s)) ∧
    (∀ u, (load_subtree maxNodes st action).next_empty ≤ u →
      (load_subtree maxNodes st action).n_vals u = 0 ∧
      (load_subtree maxNodes st action).w_vals u = 0) := by
  -- the committed child
  have hm : 2 ≤ st.idx_action_map 1 action ∧
      st.idx_action_map 1 action < st.next_empty ∧
      st.parents (st.idx_action_map 1 action) = 1 := by
    rcases hedge 1 action with h | h
    · exact absurd h hmaster
    · exact h
  set master := st.idx_action_map 1 action with hmaster_def
  -- the sentinel-corrected parent array driving the label propagation
  set P : ℕ → ℕ := upd st.parents 0 0 with hP_def
  have hP0 : P 0 = 0 := upd_same _ _ _
  have hPne : ∀ x, x ≠ 0 → P x = st.parents x := by
    intro x hx
    exact upd_ne _ _ hx
  have hP1 : P 1 = 0 := by rw [hPne 1 (by omega)]; exact hp1
  have hPdec : ∀ x, 1 ≤ x → x < maxNodes → P x < x := by
    intro x hx1 hxB
    rw [hPne x (by omega)]
    by_cases hx2 : 2 ≤ x
    · by_cases hxa : x < st.next_empty
      · exact (hpar x hxa hx2).2
      · rw [hpun x hxB (by omega)]
        omega
    · have : x = 1 := by omega
      rw [this, hp1]
      omega
  set st₂ := propagate_root_subtrees maxNodes st with hst₂
  have hsub : ∀ s, s < maxNodes → st₂.subtrees s = top_label P s := by
    intro s hs
    show label_iter P maxNodes s = top_label P s
    exact label_iter_eq_top_label P maxNodes hP0 hP1 hPdec maxNodes s hs
      (le_of_lt (lt_of_lt_of_le hs le_rfl))
  -- descendants of the committed child stay allocated and ≥ 2
  have hbounds : ∀ s, EdgeReach st.idx_action_map master s →
      2 ≤ s ∧ s < st.next_empty := by
    intro s h
    induction h with
    | refl => exact ⟨hm.1, hm.2.1⟩
    | step a hprev he hnz ih =>
      rename_i t u
      rcases hedge t a with h0 | hv
      · rw [h0] at he
        exact absurd he.symm hnz
      · rw [he] at hv
        exact ⟨hv.1, hv.2.1⟩
  -- descendants are labelled with the committed child
  have hlabel : ∀ s, EdgeReach st.idx_action_map master s →
      top_label P s = master := by
    intro s h
    induction h with
    | refl =>
      rw [top_label_unfold P maxNodes hP0 hPdec master (by omega) (by omega)]
      rw [hPne master (by omega), hm.2.2]
      simp
    | step a hprev he hnz ih =>
      rename_i t u
      rcases hedge t a with h0 | hv
      · rw [h0] at he
        exact absurd he.symm hnz
      · rw [he] at hv
        have htb := hbounds t hprev
        have hub : 2 ≤ u ∧ u < st.next_empty := ⟨hv.1, hv.2.1⟩
        rw [top_label_unfold P maxNodes hP0 hPdec u (by omega) (by omega)]
        rw [hPne u (by omega), hv.2.2]
        rw [if_neg (by omega)]
        exact ih
  -- the retained indicator
  set g : ℕ → Bool := load_new_nodes st₂ master with hg_def
  have hg_iff : ∀ s, s < maxNodes → (g s = true ↔ top_label P s = master) := by
    intro s hs
    show (decide (st₂.subtrees s = master) = true ↔ _)
    rw [decide_eq_true_iff, hsub s hs]
  have hg_master : g master = true := by
    rw [hg_iff master (by omega)]
    rw [top_label_unfold P maxNodes hP0 hPdec master (by omega) (by omega)]
    rw [hPne master (by omega), hm.2.2]
    simp
  have hg_below : ∀ t, t < master → g t = false := by
    intro t ht
    have htB : t < maxNodes := by omega
    by_cases hgt : g t = true
    · exfalso
      have := (hg_iff t htB).mp hgt
      have hle := top_label_le_self P maxNodes hP0 hPdec t htB
      omega
    · simpa using hgt
  have hg_desc : ∀ s, EdgeReach st.idx_action_map master s → g s = true := by
    intro s h
    have hb := hbounds s h
    exact (hg_iff s (by omega)).mpr (hlabel s h)
  -- the compacting translation
  set τ := load_translation st₂ master with hτ_def
  have hτ_of_true : ∀ s, g s = true → τ s = bcumsum g s := by
    intro s hs
    show (if 1 < master ∧ load_new_nodes st₂ master s then
      bcumsum (load_new_nodes st₂ master) s else 0) = _
    rw [if_pos ⟨by omega, hs⟩]
  have hτ_of_false : ∀ s, g s = false → τ s = 0 := by
    intro s hs
    show (if 1 < master ∧ load_new_nodes st₂ master s then
      bcumsum (load_new_nodes st₂ master) s else 0) = 0
    rw [if_neg (fun hc => by
      have hgt : g s = true := hc.2
      rw [hs] at hgt
      exact Bool.false_ne_true hgt)]
  have hτ_pos : ∀ s, g s = true → 1 ≤ τ s := by
    intro s hs
    rw [hτ_of_true s hs]
    exact bcumsum_pos g s hs
  have hτ_master : τ master = 1 := by
    rw [hτ_of_true master hg_master]
    exact bcumsum_eq_one_of_first g master hg_master hg_below
  have hτ_uniq : ∀ s, g s = true → ∀ s', s' < maxNodes → τ s' = τ s → s' = s := by
    intro s hs s' hs'B he
    by_cases hgs' : g s' = true
    · rw [hτ_of_true s hs, hτ_of_true s' hgs'] at he
      rcases lt_trichotomy s' s with h | h | h
      · have := bcumsum_strict g h hs
        omega
      · exact h
      · have := bcumsum_strict g h hgs'
        omega
    · exfalso
      have h0 : τ s' = 0 := hτ_of_false s' (by simpa using hgs')
      have h1 : 1 ≤ τ s := hτ_pos s hs
      omega
  set NEP := ((Finset.range maxNodes).sup τ) + 1 with hNEP_def
  have hτ_lt_NEP : ∀ s, s < maxNodes → τ s < NEP := by
    intro s hs
    have := Finset.le_sup (f := τ) (Finset.mem_range.mpr hs)
    omega
  -- projections of the promoted state
  have hn' : ∀ t, (load_subtree maxNodes st action).n_vals t =
      if t = 0 ∨ NEP ≤ t then 0
      else scatterSet st₂.n_vals τ
        (fun s => st₂.n_vals (if load_new_nodes st₂ master s then s else 0))
        maxNodes t := fun _ => rfl
  have hw' : ∀ t, (load_subtree maxNodes st action).w_vals t =
      if t = 0 ∨ NEP ≤ t then 0
      else scatterSet st₂.w_vals τ
        (fun s => st₂.w_vals (if load_new_nodes st₂ master s then s else 0))
        maxNodes t := fun _ => rfl
  have hp' : ∀ t, (load_subtree maxNodes st action).p_vals t =
      if t = 0 ∨ NEP ≤ t then (fun _ => 0)
      else scatterSet st₂.p_vals τ
        (fun s => st₂.p_vals (if load_new_nodes st₂ master s then s else 0))
        maxNodes t := fun _ => rfl
  have he' : ∀ t, (load_subtree maxNodes st action).idx_action_map t =
      if t = 0 ∨ NEP ≤ t then (fun _ => 0)
      else scatterSet st₂.idx_action_map τ
        (fun s a => τ (st₂.idx_action_map s a)) maxNodes t := fun _ => rfl
  -- the per-descendant statistics transfer
  have hstats : ∀ s, EdgeReach st.idx_action_map master s →
      (load_subtree maxNodes st action).n_vals (τ s) = st.n_vals s ∧
      (load_subtree maxNodes st action).w_vals (τ s) = st.w_vals s ∧
      (load_subtree maxNodes st action).p_vals (τ s) = st.p_vals s ∧
      (load_subtree maxNodes st action).idx_action_map (τ s) =
        fun a => τ (st₂.idx_action_map s a) := by
    intro s h
    have hb := hbounds s h
    have hsB : s < maxNodes := by omega
    have hgs := hg_desc s h
    have hτs1 : 1 ≤ τ s := hτ_pos s hgs
    have hτsN : τ s < NEP := hτ_lt_NEP s hsB
    have hguard : ¬(τ s = 0 ∨ NEP ≤ τ s) := by omega
    have holdidx : (if load_new_nodes st₂ master s then s else 0) = s := by
      rw [if_pos hgs]
    refine ⟨?_, ?_, ?_, ?_⟩
    · rw [hn' (τ s), if_neg hguard,
        scatterSet_unique_target _ _ _ maxNodes (τ s) s hsB rfl
          (fun s' hs' he => hτ_uniq s hgs s' hs' he), holdidx]
      rfl
    · rw [hw' (τ s), if_neg hguard,
        scatterSet_unique_target _ _ _ maxNodes (τ s) s hsB rfl
          (fun s' hs' he => hτ_uniq s hgs s' hs' he), holdidx]
      rfl
    · rw [hp' (τ s), if_neg hguard,
        scatterSet_unique_target _ _ _ maxNodes (τ s) s hsB rfl
          (fun s' hs' he => hτ_uniq s hgs s' hs' he), holdidx]
      rfl
    · rw [he' (τ s), if_neg hguard,
        scatterSet_unique_target _ _ _ maxNodes (τ s) s hsB rfl
          (fun s' hs' he => hτ_uniq s hgs s' hs' he)]
  -- descendants remain reachable in the compacted arena
  have hreached : ∀ s, EdgeReach st.idx_action_map master s →
      EdgeReach (load_subtree maxNodes st action).idx_action_map 1 (τ s) := by
    intro s h
    induction h with
    | refl =>
      rw [hτ_master]
      exact EdgeReach.refl 1
    | step a hprev he hnz ih =>
      rename_i t u
      have hrow := (hstats t hprev).2.2.2
      have hu_desc : EdgeReach st.idx_action_map master u :=
        EdgeReach.step a hprev he hnz
      have hgu : g u = true := hg_desc u hu_desc
      have hτu : 1 ≤ τ u := hτ_pos u hgu
      refine EdgeReach.step a ih ?_ (by omega)
      rw [hrow]
      show τ (st₂.idx_action_map t a) = τ u
      have : st₂.idx_action_map t a = u := he
      rw [this]
  -- assemble the three conclusions
  refine ⟨?_, ?_, ?_⟩
  · have := hstats master (EdgeReach.refl master)
    rw [hτ_master] at this
    exact ⟨this.1, this.2.1, this.2.2.1⟩
  · intro s h
    exact ⟨(hstats s h).1, (hstats s h).2.1, (hstats s h).2.2.1, hreached s h⟩
  · intro u hu
    have hum : max 2 NEP ≤ u := hu
    have hguard : u = 0 ∨ NEP ≤ u := by omega
    constructor
    · rw [hn' u, if_pos hguard]
    · rw [hw' u, if_pos hguard]

/-- A three-slot arena: the root (slot 1) has one child (slot 2, reached
by action 0) with `n = 5`, `w = 3` and a prior concentrated on
action 0. -/
noncomputable def st3 : MCTSState where
  idx_action_map := fun s a => if s = 1 ∧ a = 0 then 2 else 0
  p_vals := fun s a => if s = 2 ∧ a = 0 then 1 else 0
  n_vals := fun s => if s = 2 then 5 else 0
  w_vals := fun s => if s = 2 then 3 else 0
  visits := init_visits
  depth := 1
  max_depth := 1
  cur_node := 1
  next_empty := 3
  subtrees := fun _ => 0
  parents := fun s => if s = 2 then 1 else 0

theorem load_subtree_promotes_witness :
    st3.idx_action_map 1 0 ≠ 0 ∧
    (((load_subtree 3 st3 0).n_vals 1 =
        st3.n_vals (st3.idx_action_map 1 0) ∧
      (load_subtree 3 st3 0).w_vals 1 =
        st3.w_vals (st3.idx_action_map 1 0) ∧
      (load_subtree 3 st3 0).p_vals 1 =
        st3.p_vals (st3.idx_action_map 1 0)) ∧
    (∀ s, EdgeReach st3.idx_action_map (st3.idx_action_map 1 0) s →
      (load_subtree 3 st3 0).n_vals
          (load_translation (propagate_root_subtrees 3 st3)
            (st3.idx_action_map 1 0) s) = st3.n_vals s ∧
      (load_subtree 3 st3 0).w_vals
          (load_translation (propagate_root_subtrees 3 st3)
            (st3.idx_action_map 1 0) s) = st3.w_vals s ∧
      (load_subtree 3 st3 0).p_vals
          (load_translation (propagate_root_subtrees 3 st3)
            (st3.idx_action_map 1 0) s) = st3.p_vals s ∧
      EdgeReach (load_subtree 3 st3 0).idx_action_map 1
        (load_translation (propagate_root_subtrees 3 st3)
          (st3.idx_action_map 1 0) s)) ∧
    (∀ u, (load_subtree 3 st3 0).next_empty ≤ u →
      (load_subtree 3 st3 0).n_vals u = 0 ∧
      (load_subtree 3 st3 0).w_vals u = 0)) :=
  ⟨by simp [st3],
    load_subtree_promotes 3 st3 0
      (by show (2 : ℕ) ≤ 3; norm_num)
      (by show (3 : ℕ) ≤ 3; norm_num)
      (by show (if (1 : ℕ) = 2 then 1 else 0) = 0; norm_num)
      (fun s hs h2 => by
        have : s = 2 := by
          have : s < 3 := hs
          omega
        subst this
        constructor <;> simp [st3])
      (fun s hs h3 => by
        have hs' : s < 3 := hs
        have h3' : 3 ≤ s := h3
        omega)
      (fun s a => by
        by_cases h : s = 1 ∧ a = 0
        · right
          refine ⟨?_, ?_, ?_⟩ <;> simp [st3, h]
        · left
          simp [st3, h])
      (by simp [st3])⟩

end MCTSVerify
